import Mathlib

/-! # Proof-of-work retargeting and validation (src/pow.cpp)

A shallow embedding of `pow.cpp`.

* A `const CBlockIndex*` is the list of the blocks reached by following `pprev`,
  the pointed block first; the null pointer is the empty list.
* A function that can stop on a failed `assert`, a null dereference or an integer
  division by zero returns `Option`; `none` is that stop.
* `int`, `int64_t` heights and times are `Int` (block times are 32-bit fields in
  the chain, their sums and differences stay far inside 64 bits); `/` and `%` of
  C++ on signed integers are `Int.tdiv` and `Int.tmod`.
* `arith_uint256`, `uint256`, `Consensus::Params`, `CBlockIndex::GetAncestor` are
  declared in headers that are not part of `pow.cpp`; they are modelled from the
  specification and marked so.
-/

namespace Marycoin

/-! ## Data model -/

/-- The fields of a block index that `pow.cpp` reads (`nHeight`, `GetBlockTime()`, `nBits`). -/
structure CBlockIndex where
  nHeight : Int
  nTime : Int
  nBits : Nat
  deriving DecidableEq

/-- The candidate header; `pow.cpp` reads only `GetBlockTime()`. -/
structure CBlockHeader where
  nTime : Int
  deriving DecidableEq

/-- Modelled from the spec: `Consensus::Params` (params.h is absent), the fields of
`ConsensusParams` in the data model; `powLimit` is the integer the 32 bytes denote. -/
structure Params where
  powLimit : Nat
  nPowTargetSpacing : Int
  nPowTargetTimespan : Int
  fPowAllowMinDifficultyBlocks : Bool
  fPowNoRetargeting : Bool
  deriving DecidableEq

/-- Modelled from the spec: `Params::DifficultyAdjustmentInterval()` (params.h is absent),
`powTargetTimespan / powTargetSpacing`; the division by a zero spacing is a stop. -/
def DifficultyAdjustmentInterval (params : Params) : Option Int :=
  if params.nPowTargetSpacing = 0 then none
  else some (Int.tdiv params.nPowTargetTimespan params.nPowTargetSpacing)

/-- The `abs` of stdlib.h on a 64-bit time difference. -/
def abs64 (x : Int) : Int := if x < 0 then -x else x

/-! ## ArithU256 (modelled from the spec, section 4.1) -/

/-- Modelled from the spec: `UintToArith256` (arith_uint256.cpp is absent), the conversion of
32 bytes to the 256-bit unsigned integer they denote. -/
def UintToArith256 (h : Nat) : Nat := h % 2 ^ 256

/-- The result of decoding a compact target: `(value, negative, overflow)`. -/
structure Decoded where
  value : Nat
  fNegative : Bool
  fOverflow : Bool
  deriving DecidableEq

/-- Modelled from the spec: `arith_uint256::SetCompact` (arith_uint256.cpp is absent).
Byte 3 is the exponent, the low 23 bits are the magnitude of the mantissa and bit 23 its
sign; the value is the mantissa shifted right by `3 - exponent` bytes when `exponent ≤ 3`
and left by `exponent - 3` bytes otherwise, held in 256 bits. -/
def SetCompact (nCompact : Nat) : Decoded :=
  let n := nCompact % 2 ^ 32
  let nSize := n / 2 ^ 24
  let nWord := n % 2 ^ 23
  { value := if nSize ≤ 3 then nWord / 256 ^ (3 - nSize)
             else (nWord * 256 ^ (nSize - 3)) % 2 ^ 256
    fNegative := decide (n / 2 ^ 23 % 2 = 1)
    fOverflow := decide (nSize > 34 ∨ (nSize > 33 ∧ nWord > 0xff) ∨ (nSize > 32 ∧ nWord > 0xffff)) }

/-- Number of significant bytes of a value of at most `fuel` bytes. -/
def byteLenAux : Nat → Nat → Nat
  | 0, _ => 0
  | fuel + 1, v => if v = 0 then 0 else byteLenAux fuel (v / 256) + 1

/-- Number of significant bytes of a 256-bit value, `(bits() + 7) / 8`. -/
def byteLen (v : Nat) : Nat := byteLenAux 32 v

/-- Modelled from the spec: `arith_uint256::GetCompact` (arith_uint256.cpp is absent).
The exponent is the number of significant bytes, the mantissa the three most significant
bytes; a mantissa that reaches the sign bit is shifted right by one byte and the exponent
incremented. The sign bit is emitted as 0. -/
def GetCompact (v : Nat) : Nat :=
  let nSize := byteLen v
  let nCompact := if nSize ≤ 3 then v * 256 ^ (3 - nSize) else v / 256 ^ (nSize - 3)
  if 0x800000 ≤ nCompact then nCompact / 256 + (nSize + 1) * 2 ^ 24
  else nCompact + nSize * 2 ^ 24

/-- Modelled from the spec: `arith_uint256` addition (arith_uint256.h is absent), the sum of
two 256-bit values held in 256 bits. -/
def addU256 (a b : Nat) : Nat := (a + b) % 2 ^ 256

/-- Modelled from the spec: `arith_uint256` multiplication by a non-negative 64-bit integer
(arith_uint256.h is absent). The product keeps all its bits ("the intermediate must not
truncate"); a negative multiplier is outside the operation. -/
def mulI64 (a : Nat) (b : Int) : Option Nat :=
  if 0 ≤ b then some (a * b.toNat) else none

/-- Modelled from the spec: `arith_uint256` truncating division by a positive 64-bit integer
(arith_uint256.h is absent); a divisor that is zero or negative is a stop. -/
def divI64 (a : Nat) (b : Int) : Option Nat :=
  if 0 < b then some (a / b.toNat) else none

/-- The expression `(bn * m) / d` of the retargeting code. -/
def mulDiv (bn : Nat) (m d : Int) : Option Nat :=
  (mulI64 bn m).bind fun x => divI64 x d

/-! ## ChainView -/

/-- Modelled from the spec: `CBlockIndex::GetAncestor` (chain.cpp is absent). Null when the
height is negative or above the block, else the block reached by following `pprev`
`nHeight - height` times. -/
def GetAncestor (pindex : List CBlockIndex) (height : Int) : List CBlockIndex :=
  match pindex with
  | [] => []
  | b :: _ =>
    if height > b.nHeight ∨ height < 0 then []
    else pindex.drop (b.nHeight - height).toNat

/-! ## pow.cpp -/

/-- The `while (1)` of `GetDeltaTime`, on the value of `nHeightFirst`: 0 is the failed
`assert(nHeightFirst > 0)`. -/
def GetDeltaTimeLoop (pindexLast : List CBlockIndex) (timeLast : Int) : Nat → Option Int
  | 0 => none
  | h + 1 =>
    match GetAncestor pindexLast ((h : Int) + 1) with
    | [] => none
    | pindexFirst :: _ =>
      let ret := abs64 (timeLast - pindexFirst.nTime)
      if ret = 0 then GetDeltaTimeLoop pindexLast timeLast h else some ret

/-- `GetDeltaTime(nDeltaHeight, pindexLast)`, pow.cpp lines 17-38. -/
def GetDeltaTime (nDeltaHeight : Int) (pindexLast : List CBlockIndex) : Option Int :=
  match pindexLast with
  | [] => none
  | last :: _ =>
    let nHeightFirst := last.nHeight - nDeltaHeight
    if nHeightFirst > 0 then GetDeltaTimeLoop pindexLast last.nTime nHeightFirst.toNat
    else none

/-- The `for (int n=0; n<6; n++)` of `GetNextWorkRequiredMC2` with `n` iterations left:
`pindexCurr`, `nAverageBlockTime` and `bnAverageBits` are the state. -/
def averagingLoop : Nat → List CBlockIndex → Int → Nat → Option (Int × Nat)
  | 0, _, t, bn => some (t, bn)
  | n + 1, cur :: prev :: rest, t, bn =>
    averagingLoop n (prev :: rest) (t + abs64 (cur.nTime - prev.nTime))
      (addU256 bn (SetCompact cur.nBits).value)
  | _ + 1, _, _, _ => none

/-- The first `if/else` of `GetNextWorkRequiredMC2`, lines 66-72. -/
def adjustUp (t : Int) (bn : Nat) (d6 d144 : Int) : Option Nat :=
  if t < 300 then mulDiv bn (d6 + 5 * 600 * 6) (6 * 600 * 6)
  else if t < 600 then mulDiv bn (d144 + 49 * 600 * 144) (50 * 600 * 144)
  else some bn

/-- The second `if/else` of `GetNextWorkRequiredMC2`, lines 74-80. -/
def adjustDown (t : Int) (bn : Nat) (d6 : Int) : Option Nat :=
  if t > 900 then mulDiv bn d6 (600 * 6)
  else if t > 630 then mulDiv bn (d6 + 5 * 600 * 6) (6 * 600 * 6)
  else some bn

/-- `GetNextWorkRequiredMC2(pindexLast, pblock, params)`, pow.cpp lines 40-90; `pblock` is
not read. -/
def GetNextWorkRequiredMC2 (pindexLast : List CBlockIndex) (params : Params) : Option Nat :=
  match pindexLast with
  | [] => none
  | last :: _ =>
    match averagingLoop 6 pindexLast 0 0 with
    | none => none
    | some (sumTime, sumBits) =>
      let nAverageBlockTime := Int.tdiv sumTime 6
      let bnAverageBits := sumBits / 6
      match GetDeltaTime 6 pindexLast with
      | none => none
      | some nDeltaTimeBlocks6 =>
        match GetDeltaTime 144 pindexLast with
        | none => none
        | some nDeltaTimeBlocks144 =>
          match adjustUp nAverageBlockTime bnAverageBits nDeltaTimeBlocks6 nDeltaTimeBlocks144 with
          | none => none
          | some bn1 =>
            match adjustDown nAverageBlockTime bn1 nDeltaTimeBlocks6 with
            | none => none
            | some bn2 =>
              if nAverageBlockTime ≥ 600 ∧ nAverageBlockTime ≤ 630 then some last.nBits
              else
                let bnPowLimit := UintToArith256 params.powLimit
                some (GetCompact (if bn2 > bnPowLimit then bnPowLimit else bn2))

/-- `CalculateNextWorkRequiredMC(pindexBase, pindexLast, nFirstBlockTime, params)`,
pow.cpp lines 93-122. -/
def CalculateNextWorkRequiredMC (pindexBase pindexLast : List CBlockIndex)
    (nFirstBlockTime : Int) (params : Params) : Option Nat :=
  match pindexBase with
  | [] => none
  | base :: _ =>
    if params.fPowNoRetargeting then some base.nBits
    else
      match pindexLast with
      | [] => none
      | last :: pprev =>
        let nPowTargetTimespan := params.nPowTargetTimespan * 3
        let nActualTimespan := last.nTime - nFirstBlockTime
        let nActualTimespan :=
          if nActualTimespan < Int.tdiv nPowTargetTimespan 4 then Int.tdiv nPowTargetTimespan 4
          else nActualTimespan
        let nActualTimespan :=
          if nActualTimespan > nPowTargetTimespan * 4 then nPowTargetTimespan * 4
          else nActualTimespan
        let bnPowLimit := UintToArith256 params.powLimit
        let bnNew := (SetCompact base.nBits).value
        match pprev with
        | [] => none
        | prev :: _ =>
          if last.nTime - prev.nTime < Int.tdiv (7 * params.nPowTargetSpacing) 10
              ∧ nActualTimespan > nPowTargetTimespan then
            some (GetCompact bnNew)
          else
            match mulDiv bnNew nActualTimespan nPowTargetTimespan with
            | none => none
            | some bnNew => some (GetCompact (if bnNew > bnPowLimit then bnPowLimit else bnNew))

/-- The `while (pindexBase->pprev && pindexBase->nBits == nProofOfWorkLimit)` of
`GetNextWorkRequiredMC`. -/
def walkBackMC (nProofOfWorkLimit : Nat) : List CBlockIndex → List CBlockIndex
  | b :: p :: rest =>
    if b.nBits = nProofOfWorkLimit then walkBackMC nProofOfWorkLimit (p :: rest)
    else b :: p :: rest
  | l => l

/-- The choice of `pindexBase` in `GetNextWorkRequiredMC`, lines 136-141. -/
def selectBaseMC (nProofOfWorkLimit : Nat) (pindexLast pindexFirst : List CBlockIndex) :
    List CBlockIndex :=
  match walkBackMC nProofOfWorkLimit pindexLast, pindexFirst with
  | base :: more, first :: _ => if base.nTime < first.nTime then pindexLast else base :: more
  | _, _ => []

/-- `GetNextWorkRequiredMC(pindexLast, pblock, params)`, pow.cpp lines 124-144. -/
def GetNextWorkRequiredMC (pindexLast : List CBlockIndex) (pblock : CBlockHeader)
    (params : Params) : Option Nat :=
  match pindexLast with
  | [] => none
  | last :: _ =>
    let nProofOfWorkLimit := GetCompact (UintToArith256 params.powLimit)
    if pblock.nTime > last.nTime + params.nPowTargetSpacing * 4 then some nProofOfWorkLimit
    else
      let nHeightFirst := last.nHeight - 18
      if nHeightFirst ≥ 0 then
        match GetAncestor pindexLast nHeightFirst with
        | [] => none
        | first :: more =>
          CalculateNextWorkRequiredMC
            (selectBaseMC nProofOfWorkLimit pindexLast (first :: more)) pindexLast first.nTime params
      else none

/-- `CalculateNextWorkRequired(pindexLast, nFirstBlockTime, params)`, pow.cpp lines 189-212. -/
def CalculateNextWorkRequired (pindexLast : List CBlockIndex) (nFirstBlockTime : Int)
    (params : Params) : Option Nat :=
  match pindexLast with
  | [] => none
  | last :: _ =>
    if params.fPowNoRetargeting then some last.nBits
    else
      let nActualTimespan := last.nTime - nFirstBlockTime
      let nActualTimespan :=
        if nActualTimespan < Int.tdiv params.nPowTargetTimespan 4 then
          Int.tdiv params.nPowTargetTimespan 4
        else nActualTimespan
      let nActualTimespan :=
        if nActualTimespan > params.nPowTargetTimespan * 4 then params.nPowTargetTimespan * 4
        else nActualTimespan
      let bnPowLimit := UintToArith256 params.powLimit
      let bnNew := (SetCompact last.nBits).value
      match mulDiv bnNew nActualTimespan params.nPowTargetTimespan with
      | none => none
      | some bnNew => some (GetCompact (if bnNew > bnPowLimit then bnPowLimit else bnNew))

/-- The `while` of the min-difficulty rule, pow.cpp lines 172-173. -/
def walkBackLegacy (interval : Int) (nProofOfWorkLimit : Nat) :
    List CBlockIndex → List CBlockIndex
  | b :: p :: rest =>
    if Int.tmod b.nHeight interval ≠ 0 ∧ b.nBits = nProofOfWorkLimit then
      walkBackLegacy interval nProofOfWorkLimit (p :: rest)
    else b :: p :: rest
  | l => l

/-- The body of the `if` of line 159 of `GetNextWorkRequired` (no retarget), pow.cpp lines
161-177. -/
def legacyNoRetarget (last : CBlockIndex) (pprev : List CBlockIndex) (pblock : CBlockHeader)
    (params : Params) (interval : Int) : Option Nat :=
  let nProofOfWorkLimit := GetCompact (UintToArith256 params.powLimit)
  if params.fPowAllowMinDifficultyBlocks = true ∨ last.nHeight ≥ 16200 then
    if pblock.nTime > last.nTime + params.nPowTargetSpacing * 2 then
      some nProofOfWorkLimit
    else
      match walkBackLegacy interval nProofOfWorkLimit (last :: pprev) with
      | [] => none
      | pindex :: _ => some pindex.nBits
  else some last.nBits

/-- The retarget of `GetNextWorkRequired`, pow.cpp lines 180-186. -/
def legacyRetarget (last : CBlockIndex) (pprev : List CBlockIndex) (params : Params)
    (interval : Int) : Option Nat :=
  let nHeightFirst := last.nHeight - (interval - 1)
  if nHeightFirst ≥ 0 then
    match GetAncestor (last :: pprev) nHeightFirst with
    | [] => none
    | first :: _ => CalculateNextWorkRequired (last :: pprev) first.nTime params
  else none

/-- The part of `GetNextWorkRequired` below the era dispatch, pow.cpp lines 158-186. A zero
`DifficultyAdjustmentInterval()` makes the `%` of line 159 a stop. -/
def GetNextWorkRequiredLegacy (pindexLast : List CBlockIndex) (pblock : CBlockHeader)
    (params : Params) : Option Nat :=
  match pindexLast with
  | [] => none
  | last :: pprev =>
    match DifficultyAdjustmentInterval params with
    | none => none
    | some interval =>
      if interval = 0 then none
      else if Int.tmod (last.nHeight + 1) interval ≠ 0 ∨ last.nHeight = 16200 then
        legacyNoRetarget last pprev pblock params interval
      else legacyRetarget last pprev params interval

/-- `GetNextWorkRequired(pindexLast, pblock, params)`, pow.cpp lines 146-187; `nFork` is the
value of `gArgs.GetArg("-fork", 88000)`. -/
def GetNextWorkRequired (pindexLast : List CBlockIndex) (pblock : CBlockHeader)
    (params : Params) (nFork : Int) : Option Nat :=
  match pindexLast with
  | [] => none
  | last :: _ =>
    if last.nHeight ≥ nFork then GetNextWorkRequiredMC2 pindexLast params
    else if last.nHeight ≥ 26000 then GetNextWorkRequiredMC pindexLast pblock params
    else GetNextWorkRequiredLegacy pindexLast pblock params

/-- `CheckProofOfWork(hash, nBits, params)`, pow.cpp lines 214-231; `hash` is the integer
the 32 bytes denote. -/
def CheckProofOfWork (hash : Nat) (nBits : Nat) (params : Params) : Bool :=
  let d := SetCompact nBits
  let bnTarget := d.value
  if d.fNegative = true ∨ bnTarget = 0 ∨ d.fOverflow = true
      ∨ bnTarget > UintToArith256 params.powLimit then false
  else if UintToArith256 hash > bnTarget then false
  else true

/-! ## Example chains and parameters -/

/-- The main network parameters of the spec: `powLimit = 0xFFFF * 256^26`, spacing 600 s,
timespan 14 days. -/
def mainParams : Params :=
  { powLimit := 0xffff * 256 ^ 26
    nPowTargetSpacing := 600
    nPowTargetTimespan := 1209600
    fPowAllowMinDifficultyBlocks := false
    fPowNoRetargeting := false }

/-- A block at height `h` mined at time `spacing * h` with the given bits. -/
def regularTip (spacing : Int) (bits : Nat) (h : Int) : CBlockIndex :=
  { nHeight := h, nTime := spacing * h, nBits := bits }

/-- A well-formed chain with tip height `h`: heights `h, h-1, ..., 0`, block `k` mined at
time `spacing * k` with the given bits. -/
def regularChain (spacing : Int) (bits : Nat) : Nat → List CBlockIndex
  | 0 => [regularTip spacing bits 0]
  | h + 1 => regularTip spacing bits ((h : Int) + 1) :: regularChain spacing bits h

/-- The main network parameters with `fPowNoRetargeting` set. -/
def noRetargetParams : Params := { mainParams with fPowNoRetargeting := true }

/-! ## Quantities named by the specification -/

/-- The `avgTime` of section 4.4.3, step 1: one sixth (rounded down) of the sum of the six
absolute inter-block time differences ending at `b0`. -/
def avgTimeSpec (b0 b1 b2 b3 b4 b5 b6 : CBlockIndex) : Int :=
  (abs64 (b0.nTime - b1.nTime) + abs64 (b1.nTime - b2.nTime) + abs64 (b2.nTime - b3.nTime)
    + abs64 (b3.nTime - b4.nTime) + abs64 (b4.nTime - b5.nTime)
    + abs64 (b5.nTime - b6.nTime)) / 6

/-- The `avgBits` of section 4.4.3, step 1: one sixth (rounded down) of the sum of the
decoded bits of `b0` and its five predecessors, as a sum of natural numbers. -/
def avgBitsSpec (b0 b1 b2 b3 b4 b5 : CBlockIndex) : Nat :=
  ((SetCompact b0.nBits).value + (SetCompact b1.nBits).value + (SetCompact b2.nBits).value
    + (SetCompact b3.nBits).value + (SetCompact b4.nBits).value
    + (SetCompact b5.nBits).value) / 6

/-- Whether the first `if/else` of `GetNextWorkRequiredMC2` (lines 66-72, step 4) assigns
`bnAverageBits`. -/
def adjustUpApplies (t : Int) : Bool :=
  if t < 300 then true
  else if t < 600 then true
  else false

/-- Whether the second `if/else` of `GetNextWorkRequiredMC2` (lines 74-80, step 5) assigns
`bnAverageBits`. -/
def adjustDownApplies (t : Int) : Bool :=
  if t > 900 then true
  else if t > 630 then true
  else false

/-- The timespan `diff` clamped into `[T / 4, T * 4]`. -/
def clampedTimespan (diff T : Int) : Int := min (max diff (T / 4)) (T * 4)

/-- The value `v` with every byte below its `k` most significant bytes set to zero. -/
def keepTopBytes (k v : Nat) : Nat :=
  v / 256 ^ (byteLen v - k) * 256 ^ (byteLen v - k)

/-- A well-formed chain: every block of height above 0 has a predecessor of height one
less. -/
def wellFormed : List CBlockIndex → Bool
  | [] => true
  | [b] => decide (b.nHeight ≤ 0)
  | b :: p :: rest =>
    (decide (b.nHeight ≤ 0) || decide (p.nHeight = b.nHeight - 1)) && wellFormed (p :: rest)

/-- The time of the ancestor of the tip at height `g`, when there is one. -/
def ancestorTime (pindex : List CBlockIndex) (g : Int) : Option Int :=
  (GetAncestor pindex g).head?.map fun b => b.nTime

/-- The chain of scenario 6 of the specification: tip height 100000, one block a minute. -/
def fastChain : List CBlockIndex :=
  regularTip 60 0x1c00ffff 100000 :: regularTip 60 0x1c00ffff 99999
    :: regularTip 60 0x1c00ffff 99998 :: regularTip 60 0x1c00ffff 99997
    :: regularTip 60 0x1c00ffff 99996 :: regularTip 60 0x1c00ffff 99995
    :: regularTip 60 0x1c00ffff 99994 :: regularChain 60 0x1c00ffff 99993

/-- Parameters that differ from the main ones in everything but `powLimit`. -/
def otherParams : Params :=
  { powLimit := 0xffff * 256 ^ 26
    nPowTargetSpacing := 150
    nPowTargetTimespan := 302400
    fPowAllowMinDifficultyBlocks := true
    fPowNoRetargeting := true }

/-- A well-formed chain of height 8 whose last six blocks share one timestamp. -/
def stalledChain : List CBlockIndex :=
  [{ nHeight := 8, nTime := 30, nBits := 0x1c00ffff },
   { nHeight := 7, nTime := 30, nBits := 0x1c00ffff },
   { nHeight := 6, nTime := 30, nBits := 0x1c00ffff },
   { nHeight := 5, nTime := 30, nBits := 0x1c00ffff },
   { nHeight := 4, nTime := 30, nBits := 0x1c00ffff },
   { nHeight := 3, nTime := 30, nBits := 0x1c00ffff },
   { nHeight := 2, nTime := 20, nBits := 0x1c00ffff },
   { nHeight := 1, nTime := 10, nBits := 0x1c00ffff },
   { nHeight := 0, nTime := 0, nBits := 0x1c00ffff }]

/-- A chain past height 16200 whose tip carries the minimum difficulty on top of the regular
chain. -/
def minDifficultyChain : List CBlockIndex :=
  { nHeight := 16202, nTime := 9723000, nBits := 0x1d00ffff }
    :: { nHeight := 16201, nTime := 9721400, nBits := 0x1d00ffff }
    :: regularChain 600 0x1c00ffff 16200

set_option maxRecDepth 100000

/-! ## Arithmetic and codec lemmas -/

/-- The two limiting `if`s of the retargeting code clamp the timespan into `[lo, hi]`. -/
theorem clamp_eq (x lo hi : Int) :
    (if (if x < lo then lo else x) > hi then hi else (if x < lo then lo else x)) =
      min (max x lo) hi := by
  simp only [min_def, max_def]
  split_ifs <;> omega

/-- The multiply-then-divide of the retargeting code on a non-negative multiplier and a
positive divisor. -/
theorem mulDiv_eq (bn : Nat) (m d : Int) (hm : 0 ≤ m) (hd : 0 < d) :
    mulDiv bn m d = some (bn * m.toNat / d.toNat) := by
  simp [mulDiv, mulI64, divI64, hm, hd]

/-- The comparison with `bnPowLimit` followed by the assignment is a minimum. -/
theorem limit_eq (x lim : Nat) : (if x > lim then lim else x) = min x lim := by
  simp only [min_def]
  split_ifs <;> omega

/-- The byte count never exceeds the width it is computed for. -/
theorem byteLenAux_le (fuel v : Nat) : byteLenAux fuel v ≤ fuel := by
  induction fuel generalizing v with
  | zero => simp [byteLenAux]
  | succ n ih =>
    simp only [byteLenAux]
    split
    · omega
    · have := ih (v / 256)
      omega

/-- A value of at most `fuel` bytes fits in the number of bytes counted for it. -/
theorem lt_pow_byteLenAux (fuel v : Nat) (h : v < 256 ^ fuel) :
    v < 256 ^ byteLenAux fuel v := by
  induction fuel generalizing v with
  | zero => simpa [byteLenAux] using h
  | succ n ih =>
    simp only [byteLenAux]
    split
    · rename_i h0
      simp [h0]
    · have h1 : v / 256 < 256 ^ n := by
        rw [Nat.div_lt_iff_lt_mul (by norm_num)]
        rw [pow_succ] at h
        exact h
      have h2 := ih (v / 256) h1
      rw [Nat.div_lt_iff_lt_mul (by norm_num)] at h2
      rw [pow_succ]
      exact h2

/-- A 256-bit value has at most 32 significant bytes. -/
theorem byteLen_le (v : Nat) : byteLen v ≤ 32 := byteLenAux_le 32 v

/-- A 256-bit value fits in its significant bytes. -/
theorem lt_pow_byteLen (v : Nat) (h : v < 2 ^ 256) : v < 256 ^ byteLen v :=
  lt_pow_byteLenAux 32 v (by
    have : (256 : Nat) ^ 32 = 2 ^ 256 := by norm_num
    omega)

/-- Decoding a word made of a mantissa below the sign bit and an exponent byte. -/
theorem SetCompact_compose (m e : Nat) (hm : m < 2 ^ 23) (he : e < 256) :
    (SetCompact (m + e * 2 ^ 24)).value =
      if e ≤ 3 then m / 256 ^ (3 - e) else (m * 256 ^ (e - 3)) % 2 ^ 256 := by
  have h1 : (m + e * 2 ^ 24) % 2 ^ 32 = m + e * 2 ^ 24 := by
    apply Nat.mod_eq_of_lt
    omega
  have h2 : (m + e * 2 ^ 24) / 2 ^ 24 = e := by omega
  have h3 : (m + e * 2 ^ 24) % 2 ^ 23 = m := by omega
  simp only [SetCompact, h1, h2, h3]

/-- Decoding the word `GetCompact` builds from a 24-bit mantissa `c` and a size `s`. -/
theorem SetCompact_assemble (c s : Nat) (hc : c < 2 ^ 24) (hs : s ≤ 32) :
    (SetCompact (if 0x800000 ≤ c then c / 256 + (s + 1) * 2 ^ 24 else c + s * 2 ^ 24)).value =
      if 0x800000 ≤ c then
        (if s + 1 ≤ 3 then c / 256 / 256 ^ (3 - (s + 1))
          else (c / 256 * 256 ^ (s + 1 - 3)) % 2 ^ 256)
      else (if s ≤ 3 then c / 256 ^ (3 - s) else (c * 256 ^ (s - 3)) % 2 ^ 256) := by
  split
  · exact SetCompact_compose (c / 256) (s + 1) (by omega) (by omega)
  · exact SetCompact_compose c s (by omega) (by omega)

/-- The mantissa `GetCompact` extracts has at most three bytes. -/
theorem mantissa_lt (v s : Nat) (hlt : v < 256 ^ s) :
    (if s ≤ 3 then v * 256 ^ (3 - s) else v / 256 ^ (s - 3)) < 2 ^ 24 := by
  split
  · rename_i h
    have h1 : v * 256 ^ (3 - s) < 256 ^ s * 256 ^ (3 - s) :=
      Nat.mul_lt_mul_of_pos_right hlt (by positivity)
    rw [← pow_add, show s + (3 - s) = 3 by omega] at h1
    norm_num at h1 ⊢
    exact h1
  · rename_i h
    rw [Nat.div_lt_iff_lt_mul (by positivity), show (2 : Nat) ^ 24 = 256 ^ 3 by norm_num,
      ← pow_add, show 3 + (s - 3) = s by omega]
    exact hlt

/-- Decoding is never above the encoded value: encoding keeps at most the three most
significant bytes and drops the rest. -/
theorem SetCompact_GetCompact_le (v : Nat) (hv : v < 2 ^ 256) :
    (SetCompact (GetCompact v)).value ≤ v := by
  have hs := byteLen_le v
  have hlt := lt_pow_byteLen v hv
  unfold GetCompact
  simp only
  generalize byteLen v = s at hs hlt
  have hc := mantissa_lt v s hlt
  rw [SetCompact_assemble _ s hc hs]
  by_cases hs3 : s ≤ 3
  · simp only [hs3, if_true]
    interval_cases s <;> norm_num <;> split <;> omega
  · simp only [hs3, if_false]
    have hs1 : ¬ s + 1 ≤ 3 := by omega
    simp only [hs1, if_false]
    obtain ⟨k, rfl⟩ : ∃ k, s = k + 4 := ⟨s - 4, by omega⟩
    have e1 : k + 4 - 3 = k + 1 := by omega
    have e2 : k + 4 + 1 - 3 = k + 2 := by omega
    rw [e1, e2]
    split
    · calc (v / 256 ^ (k + 1) / 256 * 256 ^ (k + 2)) % 2 ^ 256
          ≤ v / 256 ^ (k + 1) / 256 * 256 ^ (k + 2) := Nat.mod_le _ _
        _ = v / 256 ^ (k + 2) * 256 ^ (k + 2) := by
            rw [Nat.div_div_eq_div_mul, ← pow_succ]
        _ ≤ v := Nat.div_mul_le_self _ _
    · calc (v / 256 ^ (k + 1) * 256 ^ (k + 1)) % 2 ^ 256
          ≤ v / 256 ^ (k + 1) * 256 ^ (k + 1) := Nat.mod_le _ _
        _ ≤ v := Nat.div_mul_le_self _ _

/-- A decoded value is a 256-bit value. -/
theorem SetCompact_value_lt (n : Nat) : (SetCompact n).value < 2 ^ 256 := by
  simp only [SetCompact]
  split
  · have h1 : n % 2 ^ 32 % 2 ^ 23 < 2 ^ 23 := Nat.mod_lt _ (by norm_num)
    have h2 := Nat.div_le_self (n % 2 ^ 32 % 2 ^ 23) (256 ^ (3 - n % 2 ^ 32 / 2 ^ 24))
    have h3 : (2 : Nat) ^ 23 < 2 ^ 256 := by norm_num
    omega
  · exact Nat.mod_lt _ (by norm_num)

/-- The value `pow.cpp` passes to `GetCompact` after the comparison with `bnPowLimit` decodes
to at most `powLimit`. -/
theorem clamped_ok (x : Nat) (params : Params) :
    (SetCompact (GetCompact (if x > UintToArith256 params.powLimit
      then UintToArith256 params.powLimit else x))).value ≤ UintToArith256 params.powLimit := by
  have hl : UintToArith256 params.powLimit < 2 ^ 256 := Nat.mod_lt _ (by norm_num)
  rw [limit_eq]
  have h1 : min x (UintToArith256 params.powLimit) ≤ UintToArith256 params.powLimit :=
    min_le_right _ _
  exact (SetCompact_GetCompact_le _ (by omega)).trans h1

/-- The compact form of `powLimit` decodes to at most `powLimit`. -/
theorem limit_ok (params : Params) :
    (SetCompact (GetCompact (UintToArith256 params.powLimit))).value
      ≤ UintToArith256 params.powLimit :=
  SetCompact_GetCompact_le _ (Nat.mod_lt _ (by norm_num))

/-! ## Validation -/

/-- C1. `CheckProofOfWork` is a total boolean function; it accepts exactly when the decoded
target has its negative flag clear, is non-zero, has its overflow flag clear, is at most
`powLimit`, and the hash is at most the target. -/
theorem CheckProofOfWork_iff (hash nBits : Nat) (params : Params) :
    CheckProofOfWork hash nBits params = true ↔
      ((SetCompact nBits).fNegative = false ∧ (SetCompact nBits).value ≠ 0 ∧
        (SetCompact nBits).fOverflow = false ∧
        (SetCompact nBits).value ≤ UintToArith256 params.powLimit ∧
        UintToArith256 hash ≤ (SetCompact nBits).value) := by
  unfold CheckProofOfWork
  by_cases h1 : (SetCompact nBits).fNegative = true <;>
  by_cases h2 : (SetCompact nBits).value = 0 <;>
  by_cases h3 : (SetCompact nBits).fOverflow = true <;>
  by_cases h4 : (SetCompact nBits).value > UintToArith256 params.powLimit <;>
  by_cases h5 : UintToArith256 hash > (SetCompact nBits).value <;>
  first
    | (simp [h1, h2, h3, h4, h5]; done)
    | (simp [h1, h2, h3, h4, h5]; omega)

/-! ## Era dispatch -/

/-- C3. `GetNextWorkRequired` is `GetNextWorkRequiredMC2` when the tip height is at least the
fork height, else `GetNextWorkRequiredMC` when it is at least 26000, else the Legacy
algorithm; so with a fork height below 26000 no tip at or above it reaches MC. -/
theorem GetNextWorkRequired_dispatch (tip : CBlockIndex) (rest : List CBlockIndex)
    (pblock : CBlockHeader) (params : Params) (nFork : Int) :
    GetNextWorkRequired (tip :: rest) pblock params nFork =
      if tip.nHeight ≥ nFork then GetNextWorkRequiredMC2 (tip :: rest) params
      else if tip.nHeight ≥ 26000 then GetNextWorkRequiredMC (tip :: rest) pblock params
      else GetNextWorkRequiredLegacy (tip :: rest) pblock params := by
  simp [GetNextWorkRequired]

/-! ## Legacy era -/

/-- Below the fork height and below 26000 the result is the one of the Legacy code, which
splits on the test of line 159. -/
theorem legacy_split (tip : CBlockIndex) (rest : List CBlockIndex)
    (pblock : CBlockHeader) (params : Params) (nFork interval : Int)
    (hI : DifficultyAdjustmentInterval params = some interval) (hI0 : interval ≠ 0)
    (hH : tip.nHeight < 26000) (hF : tip.nHeight < nFork) :
    GetNextWorkRequired (tip :: rest) pblock params nFork =
      if Int.tmod (tip.nHeight + 1) interval ≠ 0 ∨ tip.nHeight = 16200 then
        legacyNoRetarget tip rest pblock params interval
      else legacyRetarget tip rest params interval := by
  have h1 : ¬ tip.nHeight ≥ nFork := by omega
  have h2 : ¬ tip.nHeight ≥ 26000 := by omega
  simp only [GetNextWorkRequired, GetNextWorkRequiredLegacy, h1, h2, hI, hI0, if_false]

/-- A non-null ancestor was asked at a height between 0 and the height of the block. -/
theorem GetAncestor_cons_height (b : CBlockIndex) (l : List CBlockIndex) (height : Int)
    (first : CBlockIndex) (more : List CBlockIndex)
    (h : GetAncestor (b :: l) height = first :: more) : 0 ≤ height ∧ height ≤ b.nHeight := by
  simp only [GetAncestor] at h
  by_cases hc : height > b.nHeight ∨ height < 0
  · rw [if_pos hc] at h
    exact absurd h (by simp)
  · omega


/-- C7. Below height 16200 and below the fork height, off the epoch boundary (the remainder
of `tip.height + 1` by a defined, non-zero interval is not zero) and with
`allowMinDifficultyBlocks` false, `GetNextWorkRequired` returns `tip.bits`, whatever the
candidate, the `noRetargeting` flag and the rest of the chain. -/
theorem GetNextWorkRequired_below_16200 (tip : CBlockIndex) (rest : List CBlockIndex)
    (pblock : CBlockHeader) (params : Params) (nFork interval : Int)
    (hI : DifficultyAdjustmentInterval params = some interval) (hI0 : interval ≠ 0)
    (hH : tip.nHeight < 16200) (hF : tip.nHeight < nFork)
    (hmod : Int.tmod (tip.nHeight + 1) interval ≠ 0)
    (hMin : params.fPowAllowMinDifficultyBlocks = false) :
    GetNextWorkRequired (tip :: rest) pblock params nFork = some tip.nBits := by
  have h1 : ¬ tip.nHeight ≥ nFork := by omega
  have h2 : ¬ tip.nHeight ≥ 26000 := by omega
  have h3 : ¬ tip.nHeight ≥ 16200 := by omega
  simp [GetNextWorkRequired, GetNextWorkRequiredLegacy, legacyNoRetarget, h1, h2, h3, hI, hI0,
    hmod, hMin]

/-- Witness of C7: tip height 2014, interval 2016. -/
theorem GetNextWorkRequired_below_16200_witness :
    GetNextWorkRequired (regularTip 600 0x1c00ffff 2014 :: regularChain 600 0x1c00ffff 2013)
      { nTime := 1209000 } mainParams 88000 = some 0x1c00ffff :=
  GetNextWorkRequired_below_16200 (regularTip 600 0x1c00ffff 2014)
    (regularChain 600 0x1c00ffff 2013) { nTime := 1209000 } mainParams 88000 2016
    (by decide) (by decide) (by decide) (by decide) (by decide) (by decide)

/-- C6, counterexample. At height 16201 (Legacy era, off the epoch boundary, not 16200,
`allowMinDifficultyBlocks` false) a candidate more than two spacings after the tip gets
`get_compact(powLimit)`, not `tip.bits`. -/
theorem GetNextWorkRequired_legacy_tip_bits_counterexample :
    DifficultyAdjustmentInterval mainParams = some 2016 ∧
    (regularTip 600 0x1c00ffff 16201).nHeight < 26000 ∧
    (regularTip 600 0x1c00ffff 16201).nHeight < 88000 ∧
    Int.tmod ((regularTip 600 0x1c00ffff 16201).nHeight + 1) 2016 ≠ 0 ∧
    (regularTip 600 0x1c00ffff 16201).nHeight ≠ 16200 ∧
    mainParams.fPowAllowMinDifficultyBlocks = false ∧
    GetNextWorkRequired (regularTip 600 0x1c00ffff 16201 :: regularChain 600 0x1c00ffff 16200)
      { nTime := 600 * 16201 + 1201 } mainParams 88000 = some 0x1d00ffff ∧
    GetNextWorkRequired (regularTip 600 0x1c00ffff 16201 :: regularChain 600 0x1c00ffff 16200)
      { nTime := 600 * 16201 + 1201 } mainParams 88000
        ≠ some (regularTip 600 0x1c00ffff 16201).nBits := by
  decide

/-- C6, amended. In the Legacy era, off the epoch boundary, at a height other than 16200 and
with `allowMinDifficultyBlocks` false: below 16200 the result is `tip.bits`; above 16200
the min-difficulty rule applies, `get_compact(powLimit)` for a candidate more than two
spacings after the tip and the bits of the block where the backward walk stops otherwise. -/
theorem GetNextWorkRequired_legacy_off_boundary (tip : CBlockIndex) (rest : List CBlockIndex)
    (pblock : CBlockHeader) (params : Params) (nFork interval : Int)
    (hI : DifficultyAdjustmentInterval params = some interval) (hI0 : interval ≠ 0)
    (hH : tip.nHeight < 26000) (hF : tip.nHeight < nFork)
    (hmod : Int.tmod (tip.nHeight + 1) interval ≠ 0) (_h16200 : tip.nHeight ≠ 16200)
    (hMin : params.fPowAllowMinDifficultyBlocks = false) :
    GetNextWorkRequired (tip :: rest) pblock params nFork =
      if tip.nHeight < 16200 then some tip.nBits
      else if pblock.nTime > tip.nTime + params.nPowTargetSpacing * 2 then
        some (GetCompact (UintToArith256 params.powLimit))
      else
        (walkBackLegacy interval (GetCompact (UintToArith256 params.powLimit))
          (tip :: rest)).head?.map fun b => b.nBits := by
  rw [legacy_split tip rest pblock params nFork interval hI hI0 hH hF, if_pos (Or.inl hmod)]
  unfold legacyNoRetarget
  by_cases h3 : tip.nHeight < 16200
  · have h4 : ¬ tip.nHeight ≥ 16200 := by omega
    simp [h3, h4, hMin]
  · have h4 : tip.nHeight ≥ 16200 := by omega
    simp only [h3, h4, if_false, or_true, if_true]
    split
    · rfl
    · cases walkBackLegacy interval (GetCompact (UintToArith256 params.powLimit)) (tip :: rest)
        <;> rfl

/-- Witness of C6, amended: height 16201 of the regular chain, candidate one spacing later;
the walk stops at the tip. -/
theorem GetNextWorkRequired_legacy_off_boundary_witness :
    GetNextWorkRequired (regularTip 600 0x1c00ffff 16201 :: regularChain 600 0x1c00ffff 16200)
      { nTime := 600 * 16202 } mainParams 88000 = some 0x1c00ffff :=
  (GetNextWorkRequired_legacy_off_boundary (regularTip 600 0x1c00ffff 16201)
    (regularChain 600 0x1c00ffff 16200) { nTime := 600 * 16202 } mainParams 88000 2016
    (by decide) (by decide) (by decide) (by decide) (by decide) (by decide) (by decide)).trans
    (by decide)

/-- C5, counterexample. At tip height 16200 with interval 2016 the code takes the
non-retarget path (a late candidate gets `get_compact(powLimit)`), while the retarget from
the ancestor at height `16200 - 2015` would give another value. -/
theorem GetNextWorkRequired_legacy_16200_counterexample :
    DifficultyAdjustmentInterval mainParams = some 2016 ∧
    (regularTip 600 0x1c00ffff 16200).nHeight < 26000 ∧
    (regularTip 600 0x1c00ffff 16200).nHeight < 88000 ∧
    GetNextWorkRequired (regularTip 600 0x1c00ffff 16200 :: regularChain 600 0x1c00ffff 16199)
      { nTime := 600 * 16200 + 1201 } mainParams 88000 = some 0x1d00ffff ∧
    (GetAncestor (regularTip 600 0x1c00ffff 16200 :: regularChain 600 0x1c00ffff 16199)
      (16200 - (2016 - 1))).head? = some (regularTip 600 0x1c00ffff 14185) ∧
    CalculateNextWorkRequired
      (regularTip 600 0x1c00ffff 16200 :: regularChain 600 0x1c00ffff 16199)
      (regularTip 600 0x1c00ffff 14185).nTime mainParams = some 0x1c00ffde := by
  decide

/-- C5, amended. In the Legacy era with a positive interval, `GetNextWorkRequired` takes the
non-retarget path exactly when `(tip.height + 1) mod interval ≠ 0` or `tip.height = 16200`;
otherwise it takes the retarget path, which does not read the candidate header and returns
`CalculateNextWorkRequired(tip, time of ancestor(tip, tip.height - (interval - 1)), params)`. -/
theorem GetNextWorkRequired_legacy_paths (tip : CBlockIndex) (rest : List CBlockIndex)
    (pblock : CBlockHeader) (params : Params) (nFork interval : Int)
    (hI : DifficultyAdjustmentInterval params = some interval) (hpos : 0 < interval)
    (hH : tip.nHeight < 26000) (hF : tip.nHeight < nFork) :
    ((Int.tmod (tip.nHeight + 1) interval ≠ 0 ∨ tip.nHeight = 16200) →
      GetNextWorkRequired (tip :: rest) pblock params nFork =
        legacyNoRetarget tip rest pblock params interval) ∧
    (¬ (Int.tmod (tip.nHeight + 1) interval ≠ 0 ∨ tip.nHeight = 16200) →
      GetNextWorkRequired (tip :: rest) pblock params nFork =
        legacyRetarget tip rest params interval ∧
      ∀ first more, GetAncestor (tip :: rest) (tip.nHeight - (interval - 1)) = first :: more →
        GetNextWorkRequired (tip :: rest) pblock params nFork =
          CalculateNextWorkRequired (tip :: rest) first.nTime params) := by
  have hI0 : interval ≠ 0 := by omega
  have hG := legacy_split tip rest pblock params nFork interval hI hI0 hH hF
  refine ⟨fun hc => by rw [hG, if_pos hc], fun hc => ?_⟩
  rw [hG, if_neg hc]
  refine ⟨rfl, fun first more hanc => ?_⟩
  have hge := (GetAncestor_cons_height tip rest _ first more hanc).1
  simp [legacyRetarget, hge, hanc]

/-- Witness of C5, amended: the epoch boundary at height 2015 of the regular chain. -/
theorem GetNextWorkRequired_legacy_paths_witness :
    GetNextWorkRequired (regularTip 600 0x1c00ffff 2015 :: regularChain 600 0x1c00ffff 2014)
      { nTime := 600 * 2016 } mainParams 88000 =
    CalculateNextWorkRequired
      (regularTip 600 0x1c00ffff 2015 :: regularChain 600 0x1c00ffff 2014) 0 mainParams ∧
    GetNextWorkRequired (regularTip 600 0x1c00ffff 2014 :: regularChain 600 0x1c00ffff 2013)
      { nTime := 600 * 2015 } mainParams 88000 =
    legacyNoRetarget (regularTip 600 0x1c00ffff 2014) (regularChain 600 0x1c00ffff 2013)
      { nTime := 600 * 2015 } mainParams 2016 :=
  ⟨((GetNextWorkRequired_legacy_paths (regularTip 600 0x1c00ffff 2015)
      (regularChain 600 0x1c00ffff 2014) { nTime := 600 * 2016 } mainParams 88000 2016
      (by decide) (by decide) (by decide) (by decide)).2 (by decide)).2
      (regularTip 600 0x1c00ffff 0) [] (by decide),
   (GetNextWorkRequired_legacy_paths (regularTip 600 0x1c00ffff 2014)
      (regularChain 600 0x1c00ffff 2013) { nTime := 600 * 2015 } mainParams 88000 2016
      (by decide) (by decide) (by decide) (by decide)).1 (by decide)⟩

/-- C4. With `noRetargeting` false and a positive `powTargetTimespan`,
`CalculateNextWorkRequired` returns the compact form of
`min (decode(tip.bits) * a / powTargetTimespan) powLimit`, where `a` is `tip.time - firstTime`
clamped into `[powTargetTimespan / 4, powTargetTimespan * 4]` and the product is the exact
product of natural numbers; with a timespan of 1209600 and `tip.time - firstTime = 1` this is
the compact form of `decode(tip.bits) / 4` clamped to `powLimit`. -/
theorem CalculateNextWorkRequired_formula (tip : CBlockIndex) (rest : List CBlockIndex)
    (firstTime : Int) (params : Params)
    (hNR : params.fPowNoRetargeting = false) (hT : 0 < params.nPowTargetTimespan) :
    CalculateNextWorkRequired (tip :: rest) firstTime params =
      some (GetCompact (min
        ((SetCompact tip.nBits).value
          * (min (max (tip.nTime - firstTime) (params.nPowTargetTimespan / 4))
              (params.nPowTargetTimespan * 4)).toNat
          / params.nPowTargetTimespan.toNat)
        (UintToArith256 params.powLimit))) ∧
    params.nPowTargetTimespan / 4 ≤
      min (max (tip.nTime - firstTime) (params.nPowTargetTimespan / 4))
        (params.nPowTargetTimespan * 4) ∧
    min (max (tip.nTime - firstTime) (params.nPowTargetTimespan / 4))
        (params.nPowTargetTimespan * 4) ≤ params.nPowTargetTimespan * 4 ∧
    (params.nPowTargetTimespan = 1209600 → tip.nTime - firstTime = 1 →
      CalculateNextWorkRequired (tip :: rest) firstTime params =
        some (GetCompact (min ((SetCompact tip.nBits).value / 4)
          (UintToArith256 params.powLimit)))) := by
  have hdiv : Int.tdiv params.nPowTargetTimespan 4 = params.nPowTargetTimespan / 4 :=
    Int.tdiv_eq_ediv (by omega) (by omega)
  have hlo : params.nPowTargetTimespan / 4 ≤
      min (max (tip.nTime - firstTime) (params.nPowTargetTimespan / 4))
        (params.nPowTargetTimespan * 4) := by
    simp only [min_def, max_def]
    split_ifs <;> omega
  have hhi : min (max (tip.nTime - firstTime) (params.nPowTargetTimespan / 4))
      (params.nPowTargetTimespan * 4) ≤ params.nPowTargetTimespan * 4 := min_le_right _ _
  have hnn : 0 ≤ min (max (tip.nTime - firstTime) (params.nPowTargetTimespan / 4))
      (params.nPowTargetTimespan * 4) := by omega
  have hmain : CalculateNextWorkRequired (tip :: rest) firstTime params =
      some (GetCompact (min
        ((SetCompact tip.nBits).value
          * (min (max (tip.nTime - firstTime) (params.nPowTargetTimespan / 4))
              (params.nPowTargetTimespan * 4)).toNat
          / params.nPowTargetTimespan.toNat)
        (UintToArith256 params.powLimit))) := by
    simp only [CalculateNextWorkRequired, hNR, hdiv, clamp_eq, Bool.false_eq_true, if_false]
    rw [mulDiv_eq _ _ _ hnn hT]
    simp only [limit_eq]
  refine ⟨hmain, hlo, hhi, fun h1 h2 => ?_⟩
  rw [hmain, h1, h2]
  have e1 : (min (max (1 : Int) (1209600 / 4)) (1209600 * 4)).toNat = 302400 := by decide
  have e2 : (1209600 : Int).toNat = 1209600 := by decide
  have e : (SetCompact tip.nBits).value * 302400 / 1209600 = (SetCompact tip.nBits).value / 4 := by
    omega
  rw [e1, e2, e]

/-- Witness of C4: timespan 1209600, the tip one second after the first block. -/
theorem CalculateNextWorkRequired_formula_witness :
    CalculateNextWorkRequired [{ nHeight := 2015, nTime := 1, nBits := 0x1c00ffff }] 0 mainParams
      = some (GetCompact (min ((SetCompact 0x1c00ffff).value / 4)
          (UintToArith256 mainParams.powLimit))) ∧
    GetCompact (min ((SetCompact 0x1c00ffff).value / 4) (UintToArith256 mainParams.powLimit))
      = 0x1b3fffc0 :=
  ⟨(CalculateNextWorkRequired_formula { nHeight := 2015, nTime := 1, nBits := 0x1c00ffff } [] 0
      mainParams (by decide) (by decide)).2.2.2 (by decide) (by decide),
    by decide⟩

/-! ## MC era -/

/-- C9. In the MC era (26000 ≤ tip.height < fork height) a candidate whose time is strictly
greater than `tip.time + 4 * powTargetSpacing` gets `get_compact(powLimit)`, whatever the
chain behind the tip, the `noRetargeting` flag and the availability of ancestors. -/
theorem GetNextWorkRequired_MC_emergency (tip : CBlockIndex) (rest : List CBlockIndex)
    (pblock : CBlockHeader) (params : Params) (nFork : Int)
    (hH : 26000 ≤ tip.nHeight) (hF : tip.nHeight < nFork)
    (hlate : pblock.nTime > tip.nTime + 4 * params.nPowTargetSpacing) :
    GetNextWorkRequired (tip :: rest) pblock params nFork =
      some (GetCompact (UintToArith256 params.powLimit)) := by
  have h1 : ¬ tip.nHeight ≥ nFork := by omega
  have h2 : tip.nHeight ≥ 26000 := hH
  have h3 : pblock.nTime > tip.nTime + params.nPowTargetSpacing * 4 := by omega
  simp only [GetNextWorkRequired, GetNextWorkRequiredMC, h1, h2, h3, if_false, if_true]

/-- Witness of C9: tip height 30000 with no block behind it, spacing 600, candidate 2401
seconds after the tip. -/
theorem GetNextWorkRequired_MC_emergency_witness :
    GetNextWorkRequired [regularTip 600 0x1c00ffff 30000]
      { nTime := 600 * 30000 + 2401 } mainParams 88000 = some 0x1d00ffff :=
  (GetNextWorkRequired_MC_emergency (regularTip 600 0x1c00ffff 30000) []
    { nTime := 600 * 30000 + 2401 } mainParams 88000 (by decide) (by decide) (by decide)).trans
    (by decide)

/-- The walk of `GetNextWorkRequiredMC` stops at once on a tip whose bits are not the limit. -/
theorem walkBackMC_of_ne (limit : Nat) (tip : CBlockIndex) (rest : List CBlockIndex)
    (h : tip.nBits ≠ limit) : walkBackMC limit (tip :: rest) = tip :: rest := by
  cases rest with
  | nil => simp [walkBackMC]
  | cons p more => simp [walkBackMC, h]

/-- The walk of `GetNextWorkRequiredMC` never leaves the chain: it ends on a block. -/
theorem walkBackMC_ne_nil (limit : Nat) (tip : CBlockIndex) (rest : List CBlockIndex) :
    walkBackMC limit (tip :: rest) ≠ [] := by
  induction rest generalizing tip with
  | nil => simp [walkBackMC]
  | cons p more ih =>
    simp only [walkBackMC]
    split
    · exact ih p
    · simp

/-- The base block of `GetNextWorkRequiredMC` exists when the tip and the first block do. -/
theorem selectBaseMC_ne_nil (limit : Nat) (tip first : CBlockIndex)
    (rest more : List CBlockIndex) :
    selectBaseMC limit (tip :: rest) (first :: more) ≠ [] := by
  unfold selectBaseMC
  cases hw : walkBackMC limit (tip :: rest) with
  | nil => exact absurd hw (walkBackMC_ne_nil limit tip rest)
  | cons base tl =>
    simp only
    split <;> simp

/-- With `fPowNoRetargeting` set `CalculateNextWorkRequiredMC` returns the bits of the base. -/
theorem CalculateNextWorkRequiredMC_noRetargeting (pindexBase pindexLast : List CBlockIndex)
    (nFirstBlockTime : Int) (params : Params) (hNR : params.fPowNoRetargeting = true) :
    CalculateNextWorkRequiredMC pindexBase pindexLast nFirstBlockTime params =
      pindexBase.head?.map fun b => b.nBits := by
  cases pindexBase with
  | nil => simp [CalculateNextWorkRequiredMC]
  | cons base tl => simp [CalculateNextWorkRequiredMC, hNR]

/-- C8, counterexample. In the MC era with `noRetargeting` set, a candidate more than four
spacings after the tip gets `get_compact(powLimit)`, not `tip.bits`. -/
theorem GetNextWorkRequired_noRetargeting_counterexample :
    noRetargetParams.fPowNoRetargeting = true ∧
    (regularTip 600 0x1c00ffff 30000).nHeight < 88000 ∧
    GetNextWorkRequired (regularTip 600 0x1c00ffff 30000 :: regularChain 600 0x1c00ffff 29999)
      { nTime := 600 * 30000 + 2401 } noRetargetParams 88000 = some 0x1d00ffff ∧
    GetNextWorkRequired (regularTip 600 0x1c00ffff 30000 :: regularChain 600 0x1c00ffff 29999)
      { nTime := 600 * 30000 + 2401 } noRetargetParams 88000
        ≠ some (regularTip 600 0x1c00ffff 30000).nBits := by
  decide

/-- C8, amended. Below the fork height with `noRetargeting` set: on the Legacy retarget path
(epoch boundary, height other than 16200, ancestor present) the result is `tip.bits`; in the
MC era, for a candidate at most four spacings after the tip and with the ancestor at
`tip.height - 18` present, the result is the bits of the base block chosen by the walk back,
which is `tip.bits` whenever `tip.bits` is not `get_compact(powLimit)`. -/
theorem GetNextWorkRequired_noRetargeting (tip : CBlockIndex) (rest : List CBlockIndex)
    (pblock : CBlockHeader) (params : Params) (nFork : Int)
    (hNR : params.fPowNoRetargeting = true) (hF : tip.nHeight < nFork) :
    (tip.nHeight < 26000 → ∀ interval, DifficultyAdjustmentInterval params = some interval →
      interval ≠ 0 → Int.tmod (tip.nHeight + 1) interval = 0 → tip.nHeight ≠ 16200 →
      GetAncestor (tip :: rest) (tip.nHeight - (interval - 1)) ≠ [] →
      GetNextWorkRequired (tip :: rest) pblock params nFork = some tip.nBits) ∧
    (26000 ≤ tip.nHeight → pblock.nTime ≤ tip.nTime + 4 * params.nPowTargetSpacing →
      GetAncestor (tip :: rest) (tip.nHeight - 18) ≠ [] →
      GetNextWorkRequired (tip :: rest) pblock params nFork =
        (selectBaseMC (GetCompact (UintToArith256 params.powLimit)) (tip :: rest)
          (GetAncestor (tip :: rest) (tip.nHeight - 18))).head?.map (fun b => b.nBits) ∧
      (tip.nBits ≠ GetCompact (UintToArith256 params.powLimit) →
        GetNextWorkRequired (tip :: rest) pblock params nFork = some tip.nBits)) := by
  constructor
  · intro hH interval hI hI0 hmod h16200 hanc
    rw [legacy_split tip rest pblock params nFork interval hI hI0 hH hF]
    have hc : ¬ (Int.tmod (tip.nHeight + 1) interval ≠ 0 ∨ tip.nHeight = 16200) := by
      rintro (h | h)
      · exact h hmod
      · exact h16200 h
    rw [if_neg hc]
    cases hanc' : GetAncestor (tip :: rest) (tip.nHeight - (interval - 1)) with
    | nil => exact absurd hanc' hanc
    | cons first more =>
      have hge := (GetAncestor_cons_height tip rest _ first more hanc').1
      simp [legacyRetarget, hge, hanc', CalculateNextWorkRequired, hNR]
  · intro hH hlate hanc
    have h1 : ¬ tip.nHeight ≥ nFork := by omega
    have h2 : tip.nHeight ≥ 26000 := hH
    have h3 : ¬ pblock.nTime > tip.nTime + params.nPowTargetSpacing * 4 := by omega
    have h4 : tip.nHeight - 18 ≥ 0 := by omega
    cases hanc' : GetAncestor (tip :: rest) (tip.nHeight - 18) with
    | nil => exact absurd hanc' hanc
    | cons first more =>
      have hG : GetNextWorkRequired (tip :: rest) pblock params nFork =
          (selectBaseMC (GetCompact (UintToArith256 params.powLimit)) (tip :: rest)
            (first :: more)).head?.map (fun b => b.nBits) := by
        simp only [GetNextWorkRequired, GetNextWorkRequiredMC, h1, h2, h3, h4, hanc', if_false,
          if_true]
        exact CalculateNextWorkRequiredMC_noRetargeting _ _ _ _ hNR
      refine ⟨hG, fun hne => ?_⟩
      rw [hG]
      unfold selectBaseMC
      rw [walkBackMC_of_ne _ tip rest hne]
      simp only
      split <;> simp

/-- Witness of C8, amended: height 30000 of the regular chain, candidate one spacing after
the tip, `noRetargeting` set. -/
theorem GetNextWorkRequired_noRetargeting_witness :
    GetNextWorkRequired (regularTip 600 0x1c00ffff 30000 :: regularChain 600 0x1c00ffff 29999)
      { nTime := 600 * 30001 } noRetargetParams 88000 = some 0x1c00ffff ∧
    GetNextWorkRequired (regularTip 600 0x1c00ffff 2015 :: regularChain 600 0x1c00ffff 2014)
      { nTime := 600 * 2016 } noRetargetParams 88000 = some 0x1c00ffff :=
  ⟨((GetNextWorkRequired_noRetargeting (regularTip 600 0x1c00ffff 30000)
      (regularChain 600 0x1c00ffff 29999) { nTime := 600 * 30001 } noRetargetParams 88000
      (by decide) (by decide)).2 (by decide) (by decide) (by decide)).2 (by decide),
   (GetNextWorkRequired_noRetargeting (regularTip 600 0x1c00ffff 2015)
      (regularChain 600 0x1c00ffff 2014) { nTime := 600 * 2016 } noRetargetParams 88000
      (by decide) (by decide)).1 (by decide) 2016 (by decide) (by decide) (by decide)
      (by decide) (by decide)⟩

/-! ## MC2 era -/

/-- The `abs` of a time difference is not negative. -/
theorem abs64_nonneg (x : Int) : 0 ≤ abs64 x := by
  unfold abs64
  split <;> omega

/-- When the six iterations of the loop of `GetNextWorkRequiredMC2` complete, the tip has six
predecessors and the accumulated time is the sum of the six absolute differences. -/
theorem averagingLoop_six (l : List CBlockIndex) (r : Int × Nat)
    (h : averagingLoop 6 l 0 0 = some r) :
    ∃ b0 b1 b2 b3 b4 b5 b6 rest, l = b0 :: b1 :: b2 :: b3 :: b4 :: b5 :: b6 :: rest ∧
      r.1 = abs64 (b0.nTime - b1.nTime) + abs64 (b1.nTime - b2.nTime)
        + abs64 (b2.nTime - b3.nTime) + abs64 (b3.nTime - b4.nTime)
        + abs64 (b4.nTime - b5.nTime) + abs64 (b5.nTime - b6.nTime) := by
  rcases l with _ | ⟨b0, _ | ⟨b1, _ | ⟨b2, _ | ⟨b3, _ | ⟨b4, _ | ⟨b5, _ | ⟨b6, rest⟩⟩⟩⟩⟩⟩⟩ <;>
    simp only [averagingLoop, Option.some.injEq, reduceCtorEq] at h
  refine ⟨b0, b1, b2, b3, b4, b5, b6, rest, rfl, ?_⟩
  rw [← h]
  simp

/-- C10. Whenever `GetNextWorkRequiredMC2` returns a value, the tip has six predecessors, and
if `avgTime` (the floor of one sixth of the sum of the six absolute inter-block time
differences ending at the tip) lies in `[600, 630]` the value is exactly `tip.bits`. -/
theorem GetNextWorkRequiredMC2_noop_band (pindexLast : List CBlockIndex) (params : Params)
    (r : Nat) (hret : GetNextWorkRequiredMC2 pindexLast params = some r) :
    ∃ b0 b1 b2 b3 b4 b5 b6 rest,
      pindexLast = b0 :: b1 :: b2 :: b3 :: b4 :: b5 :: b6 :: rest ∧
      (600 ≤ (abs64 (b0.nTime - b1.nTime) + abs64 (b1.nTime - b2.nTime)
          + abs64 (b2.nTime - b3.nTime) + abs64 (b3.nTime - b4.nTime)
          + abs64 (b4.nTime - b5.nTime) + abs64 (b5.nTime - b6.nTime)) / 6 →
        (abs64 (b0.nTime - b1.nTime) + abs64 (b1.nTime - b2.nTime)
          + abs64 (b2.nTime - b3.nTime) + abs64 (b3.nTime - b4.nTime)
          + abs64 (b4.nTime - b5.nTime) + abs64 (b5.nTime - b6.nTime)) / 6 ≤ 630 →
        r = b0.nBits) := by
  cases hl : pindexLast with
  | nil => simp [hl, GetNextWorkRequiredMC2] at hret
  | cons last more =>
    rw [hl] at hret
    simp only [GetNextWorkRequiredMC2] at hret
    cases hav : averagingLoop 6 (last :: more) 0 0 with
    | none => simp [hav] at hret
    | some st =>
      obtain ⟨b0, b1, b2, b3, b4, b5, b6, rest, hshape, hsum⟩ :=
        averagingLoop_six (last :: more) st hav
      refine ⟨b0, b1, b2, b3, b4, b5, b6, rest, hshape, fun hlo hhi => ?_⟩
      have hlast : last = b0 := by
        have := congrArg List.head? hshape
        simpa using this
      have hnn : 0 ≤ st.1 := by
        rw [hsum]
        have := abs64_nonneg (b0.nTime - b1.nTime)
        have := abs64_nonneg (b1.nTime - b2.nTime)
        have := abs64_nonneg (b2.nTime - b3.nTime)
        have := abs64_nonneg (b3.nTime - b4.nTime)
        have := abs64_nonneg (b4.nTime - b5.nTime)
        have := abs64_nonneg (b5.nTime - b6.nTime)
        omega
      have hdiv : Int.tdiv st.1 6 = st.1 / 6 := Int.tdiv_eq_ediv hnn (by omega)
      rw [← hsum, ← hdiv] at hlo hhi
      obtain ⟨sumTime, sumBits⟩ := st
      simp only [hav] at hret
      have hband : Int.tdiv sumTime 6 ≥ 600 ∧ Int.tdiv sumTime 6 ≤ 630 := ⟨hlo, hhi⟩
      cases h6 : GetDeltaTime 6 (last :: more) with
      | none => simp [h6] at hret
      | some d6 =>
        cases h144 : GetDeltaTime 144 (last :: more) with
        | none => simp [h6, h144] at hret
        | some d144 =>
          simp only [h6, h144] at hret
          cases hup : adjustUp (Int.tdiv sumTime 6) (sumBits / 6) d6 d144 with
          | none => simp [hup] at hret
          | some bn1 =>
            simp only [hup] at hret
            cases hdown : adjustDown (Int.tdiv sumTime 6) bn1 d6 with
            | none => simp [hdown] at hret
            | some bn2 =>
              simp only [hdown, hband, and_self, if_true, Option.some.injEq] at hret
              rw [← hret, hlast]

/-- Witness of C10: on the regular chain of height 200 with one block every 600 seconds the
average is 600 and the result is the bits of the tip. -/
theorem GetNextWorkRequiredMC2_noop_band_witness :
    GetNextWorkRequiredMC2 (regularChain 600 0x1c00ffff 200) mainParams = some 0x1c00ffff ∧
    ∃ b0 b1 b2 b3 b4 b5 b6 rest,
      regularChain 600 0x1c00ffff 200 = b0 :: b1 :: b2 :: b3 :: b4 :: b5 :: b6 :: rest ∧
      (600 ≤ (abs64 (b0.nTime - b1.nTime) + abs64 (b1.nTime - b2.nTime)
          + abs64 (b2.nTime - b3.nTime) + abs64 (b3.nTime - b4.nTime)
          + abs64 (b4.nTime - b5.nTime) + abs64 (b5.nTime - b6.nTime)) / 6 →
        (abs64 (b0.nTime - b1.nTime) + abs64 (b1.nTime - b2.nTime)
          + abs64 (b2.nTime - b3.nTime) + abs64 (b3.nTime - b4.nTime)
          + abs64 (b4.nTime - b5.nTime) + abs64 (b5.nTime - b6.nTime)) / 6 ≤ 630 →
        0x1c00ffff = b0.nBits) :=
  ⟨by decide, GetNextWorkRequiredMC2_noop_band (regularChain 600 0x1c00ffff 200) mainParams
    0x1c00ffff (by decide)⟩

/-! ## Clamping -/

/-- The era dispatch of lines 153-156, for use in the lemmas below. -/
theorem GetNextWorkRequired_dispatch_aux (tip : CBlockIndex) (rest : List CBlockIndex)
    (pblock : CBlockHeader) (params : Params) (nFork : Int) :
    GetNextWorkRequired (tip :: rest) pblock params nFork =
      if tip.nHeight ≥ nFork then GetNextWorkRequiredMC2 (tip :: rest) params
      else if tip.nHeight ≥ 26000 then GetNextWorkRequiredMC (tip :: rest) pblock params
      else GetNextWorkRequiredLegacy (tip :: rest) pblock params := by
  simp [GetNextWorkRequired]


/-- A value returned by `GetNextWorkRequiredMC2` is the bits of the tip or the compact form of
a value compared with `bnPowLimit`. -/
theorem GetNextWorkRequiredMC2_shape (tip : CBlockIndex) (rest : List CBlockIndex)
    (params : Params) (r : Nat) (hret : GetNextWorkRequiredMC2 (tip :: rest) params = some r) :
    r = tip.nBits ∨ ∃ x, r = GetCompact (if x > UintToArith256 params.powLimit
      then UintToArith256 params.powLimit else x) := by
  simp only [GetNextWorkRequiredMC2] at hret
  cases hav : averagingLoop 6 (tip :: rest) 0 0 with
  | none => simp [hav] at hret
  | some st =>
    obtain ⟨sumTime, sumBits⟩ := st
    simp only [hav] at hret
    cases h6 : GetDeltaTime 6 (tip :: rest) with
    | none => simp [h6] at hret
    | some d6 =>
      cases h144 : GetDeltaTime 144 (tip :: rest) with
      | none => simp [h6, h144] at hret
      | some d144 =>
        simp only [h6, h144] at hret
        cases hup : adjustUp (Int.tdiv sumTime 6) (sumBits / 6) d6 d144 with
        | none => simp [hup] at hret
        | some bn1 =>
          simp only [hup] at hret
          cases hdown : adjustDown (Int.tdiv sumTime 6) bn1 d6 with
          | none => simp [hdown] at hret
          | some bn2 =>
            simp only [hdown] at hret
            split at hret
            · left
              exact (Option.some.inj hret).symm
            · right
              exact ⟨bn2, (Option.some.inj hret).symm⟩

/-- A value returned by `CalculateNextWorkRequired` is the bits of the tip or the compact form
of a value compared with `bnPowLimit`. -/
theorem CalculateNextWorkRequired_shape (tip : CBlockIndex) (rest : List CBlockIndex)
    (firstTime : Int) (params : Params) (r : Nat)
    (hret : CalculateNextWorkRequired (tip :: rest) firstTime params = some r) :
    r = tip.nBits ∨ ∃ x, r = GetCompact (if x > UintToArith256 params.powLimit
      then UintToArith256 params.powLimit else x) := by
  simp only [CalculateNextWorkRequired, clamp_eq] at hret
  split at hret
  · left
    exact (Option.some.inj hret).symm
  · split at hret
    · exact absurd hret (by simp)
    · rename_i bn _
      right
      exact ⟨bn, (Option.some.inj hret).symm⟩

/-- A value returned by `CalculateNextWorkRequiredMC` is the bits of the base, their re-encoded
decoding, or the compact form of a value compared with `bnPowLimit`. -/
theorem CalculateNextWorkRequiredMC_shape (base : CBlockIndex)
    (more pindexLast : List CBlockIndex) (firstTime : Int) (params : Params) (r : Nat)
    (hret : CalculateNextWorkRequiredMC (base :: more) pindexLast firstTime params = some r) :
    r = base.nBits ∨ r = GetCompact (SetCompact base.nBits).value ∨
      ∃ x, r = GetCompact (if x > UintToArith256 params.powLimit
        then UintToArith256 params.powLimit else x) := by
  simp only [CalculateNextWorkRequiredMC, clamp_eq] at hret
  split at hret
  · left
    exact (Option.some.inj hret).symm
  · split at hret
    · exact absurd hret (by simp)
    · split at hret
      · exact absurd hret (by simp)
      · split at hret
        · right
          left
          exact (Option.some.inj hret).symm
        · split at hret
          · exact absurd hret (by simp)
          · rename_i bn _
            right
            right
            exact ⟨bn, (Option.some.inj hret).symm⟩

/-- The walk of the min-difficulty rule stops on a block of the chain. -/
theorem walkBackLegacy_mem (interval : Int) (limit : Nat) (l : List CBlockIndex)
    (b : CBlockIndex) (tl : List CBlockIndex)
    (h : walkBackLegacy interval limit l = b :: tl) : b ∈ l := by
  induction l with
  | nil => simp [walkBackLegacy] at h
  | cons a l ih =>
    cases l with
    | nil =>
      simp only [walkBackLegacy, List.cons.injEq] at h
      simp [h.1]
    | cons p rest =>
      simp only [walkBackLegacy] at h
      split at h
      · exact List.mem_cons_of_mem _ (ih h)
      · simp only [List.cons.injEq] at h
        simp [h.1]

/-- The walk of `GetNextWorkRequiredMC` stops on a block of the chain. -/
theorem walkBackMC_mem (limit : Nat) (l : List CBlockIndex)
    (b : CBlockIndex) (tl : List CBlockIndex)
    (h : walkBackMC limit l = b :: tl) : b ∈ l := by
  induction l with
  | nil => simp [walkBackMC] at h
  | cons a l ih =>
    cases l with
    | nil =>
      simp only [walkBackMC, List.cons.injEq] at h
      simp [h.1]
    | cons p rest =>
      simp only [walkBackMC] at h
      split at h
      · exact List.mem_cons_of_mem _ (ih h)
      · simp only [List.cons.injEq] at h
        simp [h.1]

/-- The base block of `GetNextWorkRequiredMC` is a block of the chain. -/
theorem selectBaseMC_mem (limit : Nat) (l first : List CBlockIndex)
    (b : CBlockIndex) (tl : List CBlockIndex)
    (h : selectBaseMC limit l first = b :: tl) : b ∈ l := by
  unfold selectBaseMC at h
  cases hw : walkBackMC limit l with
  | nil => simp [hw] at h
  | cons base more =>
    cases first with
    | nil => simp [hw] at h
    | cons f fr =>
      simp only [hw] at h
      split at h
      · rw [h]
        simp
      · simp only [List.cons.injEq] at h
        rw [← h.1]
        exact walkBackMC_mem limit l base more hw

/-- C2, counterexample. A chain whose tip stores bits that decode above `powLimit`: off the
epoch boundary the Legacy code returns the stored bits, which decode above `powLimit`. -/
theorem GetNextWorkRequired_within_limit_counterexample :
    GetNextWorkRequired [{ nHeight := 0, nTime := 0, nBits := 0x1e00ffff }] { nTime := 600 }
      mainParams 88000 = some 0x1e00ffff ∧
    ¬ (SetCompact 0x1e00ffff).value ≤ UintToArith256 mainParams.powLimit := by
  decide

/-- C2, amended. When the bits of every block of the chain (the tip and the blocks behind it)
decode to a value at most `powLimit`, every compact target `GetNextWorkRequired` returns
decodes to a value at most `powLimit`, in all three eras and on all return paths. -/
theorem GetNextWorkRequired_within_limit (tip : CBlockIndex) (rest : List CBlockIndex)
    (pblock : CBlockHeader) (params : Params) (nFork : Int) (r : Nat)
    (hchain : ∀ b ∈ tip :: rest, (SetCompact b.nBits).value ≤ UintToArith256 params.powLimit)
    (hret : GetNextWorkRequired (tip :: rest) pblock params nFork = some r) :
    (SetCompact r).value ≤ UintToArith256 params.powLimit := by
  have htip := hchain tip (List.mem_cons_self _ _)
  rw [GetNextWorkRequired_dispatch_aux] at hret
  split at hret
  · rcases GetNextWorkRequiredMC2_shape tip rest params r hret with h | ⟨x, h⟩
    · rw [h]
      exact htip
    · rw [h]
      exact clamped_ok x params
  · split at hret
    · simp only [GetNextWorkRequiredMC] at hret
      split at hret
      · rw [← Option.some.inj hret]
        exact limit_ok params
      · split at hret
        · split at hret
          · exact absurd hret (by simp)
          · rename_i first more hanc
            cases hb : selectBaseMC (GetCompact (UintToArith256 params.powLimit)) (tip :: rest)
              (first :: more) with
            | nil => exact absurd hb (selectBaseMC_ne_nil _ tip first rest more)
            | cons base tl =>
              rw [hb] at hret
              have hbase := hchain base (selectBaseMC_mem _ _ _ base tl hb)
              rcases CalculateNextWorkRequiredMC_shape base tl _ _ params r hret with
                h | h | ⟨x, h⟩
              · rw [h]
                exact hbase
              · rw [h]
                exact (SetCompact_GetCompact_le _ (SetCompact_value_lt _)).trans hbase
              · rw [h]
                exact clamped_ok x params
        · exact absurd hret (by simp)
    · simp only [GetNextWorkRequiredLegacy] at hret
      split at hret
      · exact absurd hret (by simp)
      · rename_i interval _
        split at hret
        · exact absurd hret (by simp)
        · split at hret
          · simp only [legacyNoRetarget] at hret
            split at hret
            · split at hret
              · rw [← Option.some.inj hret]
                exact limit_ok params
              · split at hret
                · exact absurd hret (by simp)
                · rename_i pindex tl hw
                  rw [← Option.some.inj hret]
                  exact hchain pindex (walkBackLegacy_mem _ _ _ pindex tl hw)
            · rw [← Option.some.inj hret]
              exact htip
          · simp only [legacyRetarget] at hret
            split at hret
            · split at hret
              · exact absurd hret (by simp)
              · rcases CalculateNextWorkRequired_shape tip rest _ params r hret with h | ⟨x, h⟩
                · rw [h]
                  exact htip
                · rw [h]
                  exact clamped_ok x params
            · exact absurd hret (by simp)

/-- Witness of C2, amended: the regular chain of height 200 with one block a minute, past a
fork height of 100; the MC2 code lowers the target. -/
theorem GetNextWorkRequired_within_limit_witness :
    GetNextWorkRequired (regularTip 60 0x1c00ffff 200 :: regularChain 60 0x1c00ffff 199)
      { nTime := 60 * 201 } mainParams 100 = some 0x1c00d998 ∧
    (SetCompact 0x1c00d998).value ≤ UintToArith256 mainParams.powLimit :=
  ⟨by decide,
    GetNextWorkRequired_within_limit (regularTip 60 0x1c00ffff 200)
      (regularChain 60 0x1c00ffff 199) { nTime := 60 * 201 } mainParams 100 0x1c00d998
      (by decide) (by decide)⟩

/-! ## MC2 era: the scaling branches -/

/-- A value returned by the loop of `GetDeltaTime` is strictly positive. -/
theorem GetDeltaTimeLoop_pos (l : List CBlockIndex) (t : Int) (n : Nat) (d : Int)
    (h : GetDeltaTimeLoop l t n = some d) : 0 < d := by
  induction n with
  | zero => simp [GetDeltaTimeLoop] at h
  | succ n ih =>
    simp only [GetDeltaTimeLoop] at h
    split at h
    · exact absurd h (by simp)
    · rename_i first more _
      split at h
      · exact ih h
      · rename_i hne
        have h0 := abs64_nonneg (t - first.nTime)
        have : d = abs64 (t - first.nTime) := (Option.some.inj h).symm
        omega

/-- A value returned by `GetDeltaTime` is strictly positive. -/
theorem GetDeltaTime_pos (k : Int) (l : List CBlockIndex) (d : Int)
    (h : GetDeltaTime k l = some d) : 0 < d := by
  cases l with
  | nil => simp [GetDeltaTime] at h
  | cons b tl =>
    simp only [GetDeltaTime] at h
    by_cases hc : b.nHeight - k > 0
    · rw [if_pos hc] at h
      exact GetDeltaTimeLoop_pos _ _ _ _ h
    · rw [if_neg hc] at h
      exact absurd h (by simp)

/-- The state of the loop of `GetNextWorkRequiredMC2` after its six iterations. -/
theorem averagingLoop_seven (b0 b1 b2 b3 b4 b5 b6 : CBlockIndex) (rest : List CBlockIndex) :
    averagingLoop 6 (b0 :: b1 :: b2 :: b3 :: b4 :: b5 :: b6 :: rest) 0 0 =
      some (abs64 (b0.nTime - b1.nTime) + abs64 (b1.nTime - b2.nTime)
          + abs64 (b2.nTime - b3.nTime) + abs64 (b3.nTime - b4.nTime)
          + abs64 (b4.nTime - b5.nTime) + abs64 (b5.nTime - b6.nTime),
        addU256 (addU256 (addU256 (addU256 (addU256 (addU256 0 (SetCompact b0.nBits).value)
          (SetCompact b1.nBits).value) (SetCompact b2.nBits).value)
          (SetCompact b3.nBits).value) (SetCompact b4.nBits).value)
          (SetCompact b5.nBits).value) := by
  simp [averagingLoop]

/-- Six additions that stay below `2^256` give the sum of natural numbers. -/
theorem addU256_six (a b c d e f : Nat) (h : a + b + c + d + e + f < 2 ^ 256) :
    addU256 (addU256 (addU256 (addU256 (addU256 (addU256 0 a) b) c) d) e) f =
      a + b + c + d + e + f := by
  have h1 : (0 + a) % 2 ^ 256 = a := by
    rw [Nat.zero_add]
    exact Nat.mod_eq_of_lt (by omega)
  have h2 : (a + b) % 2 ^ 256 = a + b := Nat.mod_eq_of_lt (by omega)
  have h3 : (a + b + c) % 2 ^ 256 = a + b + c := Nat.mod_eq_of_lt (by omega)
  have h4 : (a + b + c + d) % 2 ^ 256 = a + b + c + d := Nat.mod_eq_of_lt (by omega)
  have h5 : (a + b + c + d + e) % 2 ^ 256 = a + b + c + d + e := Nat.mod_eq_of_lt (by omega)
  have h6 : (a + b + c + d + e + f) % 2 ^ 256 = a + b + c + d + e + f := Nat.mod_eq_of_lt h
  simp only [addU256, h1, h2, h3, h4, h5, h6]

/-- C11. When `GetNextWorkRequiredMC2` returns a value, `avgTime < 300` and
`avgBits * (d6 + 18000)` fits in 256 bits, the value is the compact form of
`min (avgBits * (d6 + 18000) / 21600) powLimit`, with `avgBits` one sixth of the sum of the
six decoded bits and `d6 = GetDeltaTime(6, tip)`; the second `if/else` and the no-op return
do not apply. -/
theorem GetNextWorkRequiredMC2_fast (b0 b1 b2 b3 b4 b5 b6 : CBlockIndex)
    (rest : List CBlockIndex) (params : Params) (r : Nat) (d6 : Int)
    (hret : GetNextWorkRequiredMC2 (b0 :: b1 :: b2 :: b3 :: b4 :: b5 :: b6 :: rest) params
      = some r)
    (hd6 : GetDeltaTime 6 (b0 :: b1 :: b2 :: b3 :: b4 :: b5 :: b6 :: rest) = some d6)
    (havg : avgTimeSpec b0 b1 b2 b3 b4 b5 b6 < 300)
    (hfit : avgBitsSpec b0 b1 b2 b3 b4 b5 * (d6 + 18000).toNat < 2 ^ 256) :
    r = GetCompact (min (avgBitsSpec b0 b1 b2 b3 b4 b5 * (d6 + 18000).toNat / 21600)
          (UintToArith256 params.powLimit)) ∧
    adjustDown (avgTimeSpec b0 b1 b2 b3 b4 b5 b6)
      (avgBitsSpec b0 b1 b2 b3 b4 b5 * (d6 + 18000).toNat / 21600) d6 =
      some (avgBitsSpec b0 b1 b2 b3 b4 b5 * (d6 + 18000).toNat / 21600) ∧
    ¬ (600 ≤ avgTimeSpec b0 b1 b2 b3 b4 b5 b6 ∧ avgTimeSpec b0 b1 b2 b3 b4 b5 b6 ≤ 630) := by
  have hd6pos := GetDeltaTime_pos 6 _ d6 hd6
  have hnn : 0 ≤ abs64 (b0.nTime - b1.nTime) + abs64 (b1.nTime - b2.nTime)
      + abs64 (b2.nTime - b3.nTime) + abs64 (b3.nTime - b4.nTime)
      + abs64 (b4.nTime - b5.nTime) + abs64 (b5.nTime - b6.nTime) := by
    have := abs64_nonneg (b0.nTime - b1.nTime)
    have := abs64_nonneg (b1.nTime - b2.nTime)
    have := abs64_nonneg (b2.nTime - b3.nTime)
    have := abs64_nonneg (b3.nTime - b4.nTime)
    have := abs64_nonneg (b4.nTime - b5.nTime)
    have := abs64_nonneg (b5.nTime - b6.nTime)
    omega
  have hdiv := Int.tdiv_eq_ediv hnn (show (0 : Int) ≤ 6 by omega)
  have hm : 18001 ≤ (d6 + 18000).toNat := by omega
  have hsum : (SetCompact b0.nBits).value + (SetCompact b1.nBits).value
      + (SetCompact b2.nBits).value + (SetCompact b3.nBits).value
      + (SetCompact b4.nBits).value + (SetCompact b5.nBits).value < 2 ^ 256 := by
    have h1 := Nat.mul_le_mul_left (avgBitsSpec b0 b1 b2 b3 b4 b5) hm
    unfold avgBitsSpec at h1 hfit
    omega
  have hdown : adjustDown (avgTimeSpec b0 b1 b2 b3 b4 b5 b6)
      (avgBitsSpec b0 b1 b2 b3 b4 b5 * (d6 + 18000).toNat / 21600) d6 =
      some (avgBitsSpec b0 b1 b2 b3 b4 b5 * (d6 + 18000).toNat / 21600) := by
    have h1 : ¬ avgTimeSpec b0 b1 b2 b3 b4 b5 b6 > 900 := by omega
    have h2 : ¬ avgTimeSpec b0 b1 b2 b3 b4 b5 b6 > 630 := by omega
    simp only [adjustDown, h1, h2, if_false]
  have hup : adjustUp (avgTimeSpec b0 b1 b2 b3 b4 b5 b6) (avgBitsSpec b0 b1 b2 b3 b4 b5) d6
      = fun d144 => some (avgBitsSpec b0 b1 b2 b3 b4 b5 * (d6 + 18000).toNat / 21600) := by
    funext d144
    simp only [adjustUp, havg, if_true]
    rw [mulDiv_eq _ _ _ (by omega) (by norm_num)]
    have e : Int.toNat 21600 = 21600 := by decide
    norm_num
    rw [e]
  have hband : ¬ (avgTimeSpec b0 b1 b2 b3 b4 b5 b6 ≥ 600
      ∧ avgTimeSpec b0 b1 b2 b3 b4 b5 b6 ≤ 630) := by omega
  refine ⟨?_, hdown, by omega⟩
  simp only [GetNextWorkRequiredMC2, averagingLoop_seven, hd6, hdiv,
    addU256_six _ _ _ _ _ _ hsum] at hret
  change (match GetDeltaTime 144 (b0 :: b1 :: b2 :: b3 :: b4 :: b5 :: b6 :: rest) with
    | none => none
    | some d144 =>
      match adjustUp (avgTimeSpec b0 b1 b2 b3 b4 b5 b6) (avgBitsSpec b0 b1 b2 b3 b4 b5) d6 d144
        with
      | none => none
      | some bn1 =>
        match adjustDown (avgTimeSpec b0 b1 b2 b3 b4 b5 b6) bn1 d6 with
        | none => none
        | some bn2 =>
          if avgTimeSpec b0 b1 b2 b3 b4 b5 b6 ≥ 600 ∧ avgTimeSpec b0 b1 b2 b3 b4 b5 b6 ≤ 630
          then some b0.nBits
          else some (GetCompact (if bn2 > UintToArith256 params.powLimit
            then UintToArith256 params.powLimit else bn2))) = some r at hret
  cases h144 : GetDeltaTime 144 (b0 :: b1 :: b2 :: b3 :: b4 :: b5 :: b6 :: rest) with
  | none => simp [h144] at hret
  | some d144 =>
    simp only [h144, hup, hdown, hband, if_false, limit_eq, Option.some.injEq] at hret
    exact hret.symm

/-- Witness of C11: scenario 6 of the specification, six inter-block times of 60 seconds and
`d6 = 360`; `avgBits` is scaled by 18360/21600. -/
theorem GetNextWorkRequiredMC2_fast_witness :
    GetNextWorkRequiredMC2 fastChain mainParams = some 0x1c00d998 ∧
    GetDeltaTime 6 fastChain = some 360 ∧
    0x1c00d998 = GetCompact (min
      (avgBitsSpec (regularTip 60 0x1c00ffff 100000) (regularTip 60 0x1c00ffff 99999)
        (regularTip 60 0x1c00ffff 99998) (regularTip 60 0x1c00ffff 99997)
        (regularTip 60 0x1c00ffff 99996) (regularTip 60 0x1c00ffff 99995)
        * (360 + 18000 : Int).toNat / 21600)
      (UintToArith256 mainParams.powLimit)) :=
  ⟨by decide, by decide,
    (GetNextWorkRequiredMC2_fast (regularTip 60 0x1c00ffff 100000)
      (regularTip 60 0x1c00ffff 99999) (regularTip 60 0x1c00ffff 99998)
      (regularTip 60 0x1c00ffff 99997) (regularTip 60 0x1c00ffff 99996)
      (regularTip 60 0x1c00ffff 99995) (regularTip 60 0x1c00ffff 99994)
      (regularChain 60 0x1c00ffff 99993) mainParams 0x1c00d998 360
      (by decide) (by decide) (by decide) (by decide)).1⟩

/-! ## Compact codec round trip -/

/-- Zero has no significant byte. -/
theorem byteLenAux_zero (fuel : Nat) : byteLenAux fuel 0 = 0 := by
  cases fuel <;> simp [byteLenAux]

/-- A non-zero value has at least one significant byte. -/
theorem byteLenAux_pos (fuel v : Nat) (h0 : v ≠ 0) (hf : 0 < fuel) :
    0 < byteLenAux fuel v := by
  cases fuel with
  | zero => omega
  | succ n => simp [byteLenAux, h0]

/-- The most significant byte counted by `byteLenAux` is not zero. -/
theorem pow_byteLenAux_le (fuel v : Nat) (h0 : v ≠ 0) (h : v < 256 ^ fuel) :
    256 ^ (byteLenAux fuel v - 1) ≤ v := by
  induction fuel generalizing v with
  | zero =>
    simp at h
    omega
  | succ n ih =>
    simp only [byteLenAux, h0, if_false, Nat.add_sub_cancel]
    by_cases h1 : v / 256 = 0
    · rw [h1, byteLenAux_zero]
      simp
      omega
    · have h2 : v / 256 < 256 ^ n := by
        rw [Nat.div_lt_iff_lt_mul (by norm_num)]
        rw [pow_succ] at h
        exact h
      have hn : 0 < n := by
        rcases Nat.eq_zero_or_pos n with hz | hp
        · rw [hz] at h2
          simp at h2
          omega
        · exact hp
      have hpos := byteLenAux_pos n (v / 256) h1 hn
      have ih' := ih (v / 256) h1 h2
      have e : byteLenAux n (v / 256) = (byteLenAux n (v / 256) - 1) + 1 := by omega
      rw [e, pow_succ]
      have := Nat.div_mul_le_self v 256
      have := Nat.mul_le_mul_right 256 ih'
      omega

/-- The most significant byte of a non-zero 256-bit value is not zero. -/
theorem pow_byteLen_le (v : Nat) (h0 : v ≠ 0) (h : v < 2 ^ 256) :
    256 ^ (byteLen v - 1) ≤ v :=
  pow_byteLenAux_le 32 v h0 (by
    have : (256 : Nat) ^ 32 = 2 ^ 256 := by norm_num
    omega)

/-- Decoding a word made of a mantissa below the sign bit and an exponent of at most 33,
with a mantissa of at most two bytes at exponent 33, sets no flag. -/
theorem SetCompact_flags (m e : Nat) (hm : m < 2 ^ 23) (he : e ≤ 33)
    (h33 : e = 33 → m ≤ 0xffff) :
    (SetCompact (m + e * 2 ^ 24)).fNegative = false ∧
    (SetCompact (m + e * 2 ^ 24)).fOverflow = false := by
  have h1 : (m + e * 2 ^ 24) % 2 ^ 32 = m + e * 2 ^ 24 := by
    apply Nat.mod_eq_of_lt
    omega
  have h2 : (m + e * 2 ^ 24) / 2 ^ 24 = e := by omega
  have h3 : (m + e * 2 ^ 24) % 2 ^ 23 = m := by omega
  have h4 : (m + e * 2 ^ 24) / 2 ^ 23 % 2 = 0 := by omega
  simp only [SetCompact, h1, h2, h3, h4]
  constructor
  · simp
  · simp only [decide_eq_false_iff_not]
    omega

/-- The exact value of the round trip through the compact form: `v` keeps its two most
significant bytes when its most significant byte is `0x80` or more, its three most
significant bytes otherwise; no flag is set. -/
theorem roundtrip_exact (v : Nat) (hv : v < 2 ^ 256) :
    (SetCompact (GetCompact v)).value =
      (if 128 ≤ v / 256 ^ (byteLen v - 1) then keepTopBytes 2 v else keepTopBytes 3 v) ∧
    (SetCompact (GetCompact v)).fNegative = false ∧
    (SetCompact (GetCompact v)).fOverflow = false := by
  have hs := byteLen_le v
  have hlt := lt_pow_byteLen v hv
  unfold keepTopBytes GetCompact
  simp only
  generalize byteLen v = s at hs hlt
  have hc := mantissa_lt v s hlt
  refine ⟨?_, ?_⟩
  · rw [SetCompact_assemble _ s hc hs]
    by_cases hs3 : s ≤ 3
    · simp only [hs3, if_true]
      interval_cases s <;> norm_num <;> (try norm_num at hlt) <;> (try split_ifs) <;>
        (try intros) <;> omega
    · simp only [hs3, if_false]
      have hs1 : ¬ s + 1 ≤ 3 := by omega
      simp only [hs1, if_false]
      obtain ⟨k, rfl⟩ : ∃ k, s = k + 4 := ⟨s - 4, by omega⟩
      have e1 : k + 4 - 3 = k + 1 := by omega
      have e2 : k + 4 + 1 - 3 = k + 2 := by omega
      have e3 : k + 4 - 1 = k + 3 := by omega
      have e4 : k + 4 - 2 = k + 2 := by omega
      rw [e1, e2, e3, e4]
      have htop : v / 256 ^ (k + 3) = v / 256 ^ (k + 1) / 65536 := by
        rw [Nat.div_div_eq_div_mul, show k + 3 = (k + 1) + 2 by omega, pow_add]
        norm_num
      have hA : v / 256 ^ (k + 1) / 256 * 256 ^ (k + 2) = v / 256 ^ (k + 2) * 256 ^ (k + 2) := by
        rw [Nat.div_div_eq_div_mul, ← pow_succ]
      have hB : v / 256 ^ (k + 2) * 256 ^ (k + 2) < 2 ^ 256 :=
        lt_of_le_of_lt (Nat.div_mul_le_self _ _) hv
      have hC : v / 256 ^ (k + 1) * 256 ^ (k + 1) < 2 ^ 256 :=
        lt_of_le_of_lt (Nat.div_mul_le_self _ _) hv
      rw [htop]
      by_cases hbit : 8388608 ≤ v / 256 ^ (k + 1)
      · have h128 : 128 ≤ v / 256 ^ (k + 1) / 65536 := by omega
        rw [if_pos hbit, if_pos h128, hA, Nat.mod_eq_of_lt hB]
      · have h128 : ¬ 128 ≤ v / 256 ^ (k + 1) / 65536 := by omega
        rw [if_neg hbit, if_neg h128, Nat.mod_eq_of_lt hC]
  · generalize (if s ≤ 3 then v * 256 ^ (3 - s) else v / 256 ^ (s - 3)) = c at hc
    by_cases hbit : 0x800000 ≤ c
    · rw [if_pos hbit]
      exact SetCompact_flags (c / 256) (s + 1) (by omega) (by omega) (fun _ => by omega)
    · rw [if_neg hbit]
      exact SetCompact_flags c s (by omega) (by omega) (fun h => by omega)

/-- Keeping at least as many bytes as the value has changes nothing. -/
theorem keepTopBytes_of_le (k v : Nat) (h : byteLen v ≤ k) : keepTopBytes k v = v := by
  unfold keepTopBytes
  rw [show byteLen v - k = 0 by omega]
  simp

/-- The round trip loses less than `2^-15` of the decoded value. -/
theorem roundtrip_loss (v : Nat) (hv : v < 2 ^ 256) :
    v ≤ (SetCompact (GetCompact v)).value + (SetCompact (GetCompact v)).value / 32768 := by
  rw [(roundtrip_exact v hv).1]
  have key : ∀ j : Nat, 32768 ≤ v / 256 ^ j →
      v ≤ v / 256 ^ j * 256 ^ j + v / 256 ^ j * 256 ^ j / 32768 := by
    intro j hq
    have h1 : 256 ^ j ≤ v / 256 ^ j * 256 ^ j / 32768 := by
      rw [Nat.le_div_iff_mul_le (by norm_num)]
      rw [Nat.mul_comm]
      exact Nat.mul_le_mul_right _ hq
    have h2 := Nat.div_add_mod v (256 ^ j)
    have h3 : v % 256 ^ j < 256 ^ j := Nat.mod_lt _ (by positivity)
    have h4 : 256 ^ j * (v / 256 ^ j) = v / 256 ^ j * 256 ^ j := Nat.mul_comm _ _
    omega
  by_cases h0 : v = 0
  · subst h0
    decide
  have hlow := pow_byteLen_le v h0 hv
  unfold keepTopBytes
  split
  · rename_i htop
    by_cases hs : byteLen v ≤ 2
    · rw [show byteLen v - 2 = 0 by omega]
      simp
    · apply key
      have e : byteLen v - 1 = (byteLen v - 2) + 1 := by omega
      rw [e, pow_succ, ← Nat.div_div_eq_div_mul] at htop
      omega
  · by_cases hs : byteLen v ≤ 3
    · rw [show byteLen v - 3 = 0 by omega]
      simp
    · apply key
      have e : byteLen v - 1 = (byteLen v - 3) + 2 := by omega
      rw [e, pow_add] at hlow
      have h5 : 0 < 256 ^ (byteLen v - 3) := by positivity
      rw [Nat.le_div_iff_mul_le h5]
      norm_num at hlow
      have : 32768 * 256 ^ (byteLen v - 3) ≤ 256 ^ (byteLen v - 3) * 65536 := by omega
      omega

/-- C13, counterexample. The three-byte value `0x800001` is below the main `powLimit`, has
its most significant byte at `0x80`, and comes back from the compact form as `0x800000`: its
third byte is lost although it is among the three most significant. -/
theorem SetCompact_GetCompact_counterexample :
    0x800001 ≤ UintToArith256 mainParams.powLimit ∧
    byteLen 0x800001 = 3 ∧
    keepTopBytes 3 0x800001 = 0x800001 ∧
    (SetCompact (GetCompact 0x800001)).value = 0x800000 ∧
    (SetCompact (GetCompact 0x800001)).value ≠ keepTopBytes 3 0x800001 := by
  decide

/-- C13, amended. For `v ≤ powLimit` the round trip through the compact form sets no flag
and yields `v` with every byte below its three most significant bytes set to zero when the
most significant byte of `v` is below `0x80`, and with every byte below its two most
significant bytes set to zero when that byte is `0x80` or more; so it yields `v` itself when
`v` has at most two significant bytes, or three with the first below `0x80`. -/
theorem SetCompact_GetCompact_roundtrip (v : Nat) (params : Params)
    (hv : v ≤ UintToArith256 params.powLimit) :
    (SetCompact (GetCompact v)).fNegative = false ∧
    (SetCompact (GetCompact v)).fOverflow = false ∧
    (SetCompact (GetCompact v)).value =
      (if 128 ≤ v / 256 ^ (byteLen v - 1) then keepTopBytes 2 v else keepTopBytes 3 v) ∧
    (byteLen v ≤ 2 → (SetCompact (GetCompact v)).value = v) ∧
    (byteLen v ≤ 3 → v / 256 ^ (byteLen v - 1) < 128 → (SetCompact (GetCompact v)).value = v) ∧
    (v ≠ 0 → 256 ^ (byteLen v - 1) ≤ v ∧ v < 256 ^ byteLen v) := by
  have hl : UintToArith256 params.powLimit < 2 ^ 256 := Nat.mod_lt _ (by norm_num)
  have hv' : v < 2 ^ 256 := by omega
  obtain ⟨h1, h2, h3⟩ := roundtrip_exact v hv'
  refine ⟨h2, h3, h1, fun hs => ?_, fun hs ht => ?_, fun h0 =>
    ⟨pow_byteLen_le v h0 hv', lt_pow_byteLen v hv'⟩⟩
  · rw [h1]
    split
    · exact keepTopBytes_of_le 2 v hs
    · exact keepTopBytes_of_le 3 v (by omega)
  · rw [h1, if_neg (by omega)]
    exact keepTopBytes_of_le 3 v hs

/-- Witness of C13, amended: scenario 1 of the specification. `0x1d00ffff` decodes to
`0xFFFF * 256^26`, which re-encodes to `0x1d00ffff` and comes back unchanged. -/
theorem SetCompact_GetCompact_roundtrip_witness :
    (SetCompact 0x1d00ffff).value = 0xffff * 256 ^ 26 ∧
    GetCompact (0xffff * 256 ^ 26) = 0x1d00ffff ∧
    (SetCompact (GetCompact (0xffff * 256 ^ 26))).value = 0xffff * 256 ^ 26 ∧
    (SetCompact (GetCompact (0xffff * 256 ^ 26))).fNegative = false ∧
    (SetCompact (GetCompact (0xffff * 256 ^ 26))).fOverflow = false :=
  ⟨by decide, by decide,
    ((SetCompact_GetCompact_roundtrip (0xffff * 256 ^ 26) mainParams (by decide)).2.2.1).trans
      (by decide),
    (SetCompact_GetCompact_roundtrip (0xffff * 256 ^ 26) mainParams (by decide)).1,
    (SetCompact_GetCompact_roundtrip (0xffff * 256 ^ 26) mainParams (by decide)).2.1⟩

/-! ## Legacy retarget: bounds -/

/-- The value `CalculateNextWorkRequired` computes with `fPowNoRetargeting` false and a
positive timespan. -/
theorem CalculateNextWorkRequired_eq (tip : CBlockIndex) (rest : List CBlockIndex)
    (firstTime : Int) (params : Params)
    (hNR : params.fPowNoRetargeting = false) (hT : 0 < params.nPowTargetTimespan) :
    CalculateNextWorkRequired (tip :: rest) firstTime params =
      some (GetCompact (min
        ((SetCompact tip.nBits).value
          * (min (max (tip.nTime - firstTime) (params.nPowTargetTimespan / 4))
              (params.nPowTargetTimespan * 4)).toNat
          / params.nPowTargetTimespan.toNat)
        (UintToArith256 params.powLimit))) := by
  have hdiv : Int.tdiv params.nPowTargetTimespan 4 = params.nPowTargetTimespan / 4 :=
    Int.tdiv_eq_ediv (by omega) (by omega)
  have hnn : 0 ≤ min (max (tip.nTime - firstTime) (params.nPowTargetTimespan / 4))
      (params.nPowTargetTimespan * 4) := by
    simp only [min_def, max_def]
    split_ifs <;> omega
  simp only [CalculateNextWorkRequired, hNR, hdiv, clamp_eq, Bool.false_eq_true, if_false]
  rw [mulDiv_eq _ _ _ hnn hT]
  simp only [limit_eq]

/-- C12, counterexample. A tip storing `0x1e00ffff` retargeted over exactly one timespan is
clamped to the main `powLimit`: the result decodes to 1/256 of the decoded `tip.bits`, far
below a quarter of it even with the loss of the compact form added. -/
theorem CalculateNextWorkRequired_factor4_counterexample :
    mainParams.fPowNoRetargeting = false ∧ 0 < mainParams.nPowTargetTimespan ∧
    CalculateNextWorkRequired [{ nHeight := 2015, nTime := 1209600, nBits := 0x1e00ffff }] 0
      mainParams = some 0x1d00ffff ∧
    ¬ (SetCompact 0x1e00ffff).value ≤
      4 * ((SetCompact 0x1d00ffff).value + (SetCompact 0x1d00ffff).value / 32768) := by
  decide

/-- C12, amended. With `noRetargeting` false and a positive timespan the result is the
compact form of a value `x` whose decoding is at most `4 * decode(tip.bits)` and at most
`powLimit`; the compact form loses less than `2^-15` of the decoded value; and when the
timespan is a multiple of 4 and a quarter of `decode(tip.bits)` is at most `powLimit`, `x` is
at least that quarter. -/
theorem CalculateNextWorkRequired_factor4 (tip : CBlockIndex) (rest : List CBlockIndex)
    (firstTime : Int) (params : Params)
    (hNR : params.fPowNoRetargeting = false) (hT : 0 < params.nPowTargetTimespan) :
    ∃ x, CalculateNextWorkRequired (tip :: rest) firstTime params = some (GetCompact x) ∧
      (SetCompact (GetCompact x)).value ≤ 4 * (SetCompact tip.nBits).value ∧
      (SetCompact (GetCompact x)).value ≤ UintToArith256 params.powLimit ∧
      (SetCompact (GetCompact x)).value ≤ x ∧
      x ≤ (SetCompact (GetCompact x)).value + (SetCompact (GetCompact x)).value / 32768 ∧
      (4 ∣ params.nPowTargetTimespan →
        (SetCompact tip.nBits).value / 4 ≤ UintToArith256 params.powLimit →
        (SetCompact tip.nBits).value / 4 ≤ x) := by
  have hl : UintToArith256 params.powLimit < 2 ^ 256 := Nat.mod_lt _ (by norm_num)
  have ha1 : (params.nPowTargetTimespan / 4).toNat ≤
      (min (max (tip.nTime - firstTime) (params.nPowTargetTimespan / 4))
        (params.nPowTargetTimespan * 4)).toNat := by
    simp only [min_def, max_def]
    split_ifs <;> omega
  have ha2 : (min (max (tip.nTime - firstTime) (params.nPowTargetTimespan / 4))
      (params.nPowTargetTimespan * 4)).toNat ≤ params.nPowTargetTimespan.toNat * 4 := by
    simp only [min_def, max_def]
    split_ifs <;> omega
  have hTn : 0 < params.nPowTargetTimespan.toNat := by omega
  have hmain := CalculateNextWorkRequired_eq tip rest firstTime params hNR hT
  generalize (min (max (tip.nTime - firstTime) (params.nPowTargetTimespan / 4))
      (params.nPowTargetTimespan * 4)).toNat = an at ha1 ha2 hmain
  generalize (SetCompact tip.nBits).value = d at hmain ⊢
  have hx4 : d * an / params.nPowTargetTimespan.toNat ≤ 4 * d := by
    apply Nat.div_le_of_le_mul
    calc d * an ≤ d * (params.nPowTargetTimespan.toNat * 4) := Nat.mul_le_mul_left _ ha2
      _ = params.nPowTargetTimespan.toNat * (4 * d) := by ring
  have hxL : min (d * an / params.nPowTargetTimespan.toNat) (UintToArith256 params.powLimit)
      ≤ UintToArith256 params.powLimit := min_le_right _ _
  have hx4' : min (d * an / params.nPowTargetTimespan.toNat) (UintToArith256 params.powLimit)
      ≤ 4 * d := (min_le_left _ _).trans hx4
  have hdec := SetCompact_GetCompact_le
    (min (d * an / params.nPowTargetTimespan.toNat) (UintToArith256 params.powLimit))
    (by omega)
  refine ⟨_, hmain, hdec.trans hx4', hdec.trans hxL, hdec, roundtrip_loss _ (by omega),
    fun h4 hq => ?_⟩
  have hq4 : params.nPowTargetTimespan.toNat = 4 * (params.nPowTargetTimespan / 4).toNat := by
    omega
  have hqpos : 0 < (params.nPowTargetTimespan / 4).toNat := by omega
  have h1 : d / 4 ≤ d * an / params.nPowTargetTimespan.toNat := by
    rw [hq4, ← Nat.mul_div_mul_right d 4 hqpos]
    exact Nat.div_le_div_right (Nat.mul_le_mul_left _ ha1)
  exact le_min h1 hq

/-- Witness of C12, amended: the tip of the regular chain one second after the first block,
timespan 1209600. The result `0x1b3fffc0` decodes to a quarter of the decoded `tip.bits`. -/
theorem CalculateNextWorkRequired_factor4_witness :
    (∃ x, CalculateNextWorkRequired [{ nHeight := 2015, nTime := 1, nBits := 0x1c00ffff }] 0
        mainParams = some (GetCompact x) ∧
      (SetCompact (GetCompact x)).value ≤ 4 * (SetCompact 0x1c00ffff).value ∧
      (SetCompact (GetCompact x)).value ≤ UintToArith256 mainParams.powLimit ∧
      (SetCompact (GetCompact x)).value ≤ x ∧
      x ≤ (SetCompact (GetCompact x)).value + (SetCompact (GetCompact x)).value / 32768 ∧
      (4 ∣ mainParams.nPowTargetTimespan →
        (SetCompact 0x1c00ffff).value / 4 ≤ UintToArith256 mainParams.powLimit →
        (SetCompact 0x1c00ffff).value / 4 ≤ x)) ∧
    CalculateNextWorkRequired [{ nHeight := 2015, nTime := 1, nBits := 0x1c00ffff }] 0
      mainParams = some 0x1b3fffc0 ∧
    4 * (SetCompact 0x1b3fffc0).value = (SetCompact 0x1c00ffff).value :=
  ⟨CalculateNextWorkRequired_factor4 { nHeight := 2015, nTime := 1, nBits := 0x1c00ffff } [] 0
      mainParams (by decide) (by decide),
    by decide, by decide⟩

/-! ## MC2 era: what the result depends on -/

/-- C14. `GetNextWorkRequiredMC2` reads the chain and `powLimit` only: two calls on the same
chain with parameters that agree on `powLimit` give the same outcome (the same value or no
value), whatever the flags, the other parameters and the candidate header; the same holds
for `GetNextWorkRequired` at or above the fork height. -/
theorem GetNextWorkRequiredMC2_independent (l : List CBlockIndex) (params params' : Params)
    (hL : params.powLimit = params'.powLimit) :
    GetNextWorkRequiredMC2 l params = GetNextWorkRequiredMC2 l params' ∧
    ∀ (tip : CBlockIndex) (rest : List CBlockIndex) (pblock pblock' : CBlockHeader)
      (nFork : Int), l = tip :: rest → tip.nHeight ≥ nFork →
      GetNextWorkRequired l pblock params nFork = GetNextWorkRequired l pblock' params' nFork := by
  have h : GetNextWorkRequiredMC2 l params = GetNextWorkRequiredMC2 l params' := by
    cases l with
    | nil => rfl
    | cons b tl => simp only [GetNextWorkRequiredMC2, hL]
  refine ⟨h, fun tip rest pblock pblock' nFork hl hF => ?_⟩
  subst hl
  simp only [GetNextWorkRequired, hF, if_true]
  exact h

/-- Witness of C14: scenario 6 with the main parameters and with parameters that differ in
both flags, the spacing and the timespan, and with two candidate headers. -/
theorem GetNextWorkRequiredMC2_independent_witness :
    GetNextWorkRequiredMC2 fastChain mainParams = GetNextWorkRequiredMC2 fastChain otherParams ∧
    GetNextWorkRequired fastChain { nTime := 0 } mainParams 88000 =
      GetNextWorkRequired fastChain { nTime := 6000600 } otherParams 88000 :=
  ⟨(GetNextWorkRequiredMC2_independent fastChain mainParams otherParams (by decide)).1,
    (GetNextWorkRequiredMC2_independent fastChain mainParams otherParams (by decide)).2
      (regularTip 60 0x1c00ffff 100000) _ { nTime := 0 } { nTime := 6000600 } 88000 rfl
      (by decide)⟩

/-- C15, counterexample. No call of `GetNextWorkRequiredMC2` assigns `bnAverageBits` in both
`if/else` statements: the first needs an average below 600, the second one above 630. -/
theorem GetNextWorkRequiredMC2_both_counterexample :
    ¬ ∃ (l : List CBlockIndex) (sumTime : Int) (sumBits : Nat),
      averagingLoop 6 l 0 0 = some (sumTime, sumBits) ∧
      adjustUpApplies (Int.tdiv sumTime 6) = true ∧
      adjustDownApplies (Int.tdiv sumTime 6) = true := by
  rintro ⟨l, sumTime, sumBits, -, hup, hdown⟩
  simp only [adjustUpApplies, adjustDownApplies] at hup hdown
  split_ifs at hup hdown <;> omega

/-- C15, amended. In every call at most one of the two steps changes `avgBits`: the upward
step (line 67 or 71) is taken exactly when the average is below 600, the downward step
(line 75 or 79) exactly when it is above 630; when one is taken the other returns its
argument unchanged. -/
theorem adjust_exclusive (t : Int) (bn bn' : Nat) (d6 d144 : Int) :
    (adjustUpApplies t = true ↔ t < 600) ∧
    (adjustDownApplies t = true ↔ t > 630) ∧
    ¬ (adjustUpApplies t = true ∧ adjustDownApplies t = true) ∧
    (adjustUpApplies t = false → adjustUp t bn d6 d144 = some bn) ∧
    (adjustDownApplies t = false → adjustDown t bn' d6 = some bn') ∧
    (adjustUpApplies t = true → adjustDown t bn' d6 = some bn') ∧
    (adjustDownApplies t = true → adjustUp t bn d6 d144 = some bn) := by
  simp only [adjustUpApplies, adjustDownApplies, adjustUp, adjustDown]
  refine ⟨?_, ?_, ?_, ?_, ?_, ?_, ?_⟩ <;> split_ifs <;> simp <;> omega

/-! ## MC era: the deadband -/

/-- C16. In `CalculateNextWorkRequiredMC` with `noRetargeting` false, a positive timespan, a
spacing that is not negative and a tip that has a predecessor, with `T = 3 * timespan` and
`a` the difference `tip.time - firstTime` clamped into `[T / 4, T * 4]`: when
`tip.time - tip.prev.time < 7 * spacing / 10` and `a > T` the result is the compact form of
the decoded `base.bits`, with no scaling and no comparison with `powLimit`; otherwise it is
the compact form of `min (decode(base.bits) * a / T) powLimit`. -/
theorem CalculateNextWorkRequiredMC_deadband (base : CBlockIndex) (more : List CBlockIndex)
    (tip prev : CBlockIndex) (rest : List CBlockIndex) (firstTime : Int) (params : Params)
    (hNR : params.fPowNoRetargeting = false) (hT : 0 < params.nPowTargetTimespan)
    (hS : 0 ≤ params.nPowTargetSpacing) :
    CalculateNextWorkRequiredMC (base :: more) (tip :: prev :: rest) firstTime params =
      if tip.nTime - prev.nTime < 7 * params.nPowTargetSpacing / 10 ∧
          clampedTimespan (tip.nTime - firstTime) (3 * params.nPowTargetTimespan)
            > 3 * params.nPowTargetTimespan then
        some (GetCompact (SetCompact base.nBits).value)
      else
        some (GetCompact (min
          ((SetCompact base.nBits).value
            * (clampedTimespan (tip.nTime - firstTime) (3 * params.nPowTargetTimespan)).toNat
            / (3 * params.nPowTargetTimespan).toNat)
          (UintToArith256 params.powLimit))) := by
  have h3 : params.nPowTargetTimespan * 3 = 3 * params.nPowTargetTimespan := by ring
  have hdiv : Int.tdiv (3 * params.nPowTargetTimespan) 4 = 3 * params.nPowTargetTimespan / 4 :=
    Int.tdiv_eq_ediv (by omega) (by omega)
  have hdiv7 : Int.tdiv (7 * params.nPowTargetSpacing) 10 = 7 * params.nPowTargetSpacing / 10 :=
    Int.tdiv_eq_ediv (by omega) (by omega)
  have hnn : 0 ≤ clampedTimespan (tip.nTime - firstTime) (3 * params.nPowTargetTimespan) := by
    simp only [clampedTimespan, min_def, max_def]
    split_ifs <;> omega
  simp only [CalculateNextWorkRequiredMC, hNR, h3, hdiv, hdiv7, clamp_eq, Bool.false_eq_true,
    if_false]
  change (if tip.nTime - prev.nTime < 7 * params.nPowTargetSpacing / 10 ∧
      clampedTimespan (tip.nTime - firstTime) (3 * params.nPowTargetTimespan)
        > 3 * params.nPowTargetTimespan then
      some (GetCompact (SetCompact base.nBits).value)
    else
      match mulDiv (SetCompact base.nBits).value
        (clampedTimespan (tip.nTime - firstTime) (3 * params.nPowTargetTimespan))
        (3 * params.nPowTargetTimespan) with
      | none => none
      | some bnNew => some (GetCompact (if bnNew > UintToArith256 params.powLimit
          then UintToArith256 params.powLimit else bnNew))) = _
  rw [mulDiv_eq _ _ _ hnn (by omega)]
  simp only [limit_eq]

/-- Witness of C16: timespan 1209600 (`T = 3628800`), spacing 600 (`7 * 600 / 10 = 420`),
`tip.time - firstTime = 4000000 > T`. A tip 100 seconds after its predecessor is in the
deadband; a tip 1000 seconds after it is rescaled by `4000000 / 3628800`. -/
theorem CalculateNextWorkRequiredMC_deadband_witness :
    CalculateNextWorkRequiredMC [{ nHeight := 30000, nTime := 4000000, nBits := 0x1c00ffff }]
      [{ nHeight := 30000, nTime := 4000000, nBits := 0x1c00ffff },
        { nHeight := 29999, nTime := 3999900, nBits := 0x1c00ffff }] 0 mainParams
      = some 0x1c00ffff ∧
    CalculateNextWorkRequiredMC [{ nHeight := 30000, nTime := 4000000, nBits := 0x1c00ffff }]
      [{ nHeight := 30000, nTime := 4000000, nBits := 0x1c00ffff },
        { nHeight := 29999, nTime := 3999000, nBits := 0x1c00ffff }] 0 mainParams
      = some 0x1c011a2e :=
  ⟨(CalculateNextWorkRequiredMC_deadband
      { nHeight := 30000, nTime := 4000000, nBits := 0x1c00ffff } []
      { nHeight := 30000, nTime := 4000000, nBits := 0x1c00ffff }
      { nHeight := 29999, nTime := 3999900, nBits := 0x1c00ffff } [] 0 mainParams
      (by decide) (by decide) (by decide)).trans (by decide),
   (CalculateNextWorkRequiredMC_deadband
      { nHeight := 30000, nTime := 4000000, nBits := 0x1c00ffff } []
      { nHeight := 30000, nTime := 4000000, nBits := 0x1c00ffff }
      { nHeight := 29999, nTime := 3999000, nBits := 0x1c00ffff } [] 0 mainParams
      (by decide) (by decide) (by decide)).trans (by decide)⟩

/-! ## GetDeltaTime -/

/-- The `abs` of a difference is zero exactly when the two times are equal. -/
theorem abs64_sub_eq_zero (a b : Int) : abs64 (a - b) = 0 ↔ b = a := by
  unfold abs64
  split <;> omega

/-- The time of an ancestor that is there. -/
theorem ancestorTime_of_cons (l : List CBlockIndex) (g : Int) (b : CBlockIndex)
    (more : List CBlockIndex) (h : GetAncestor l g = b :: more) :
    ancestorTime l g = some b.nTime := by
  simp [ancestorTime, h]

/-- The loop of `GetDeltaTime` started at height `n`, when every height from 1 to `n` has an
ancestor: it stops with no value when all of them carry the time of the tip, and otherwise
returns the distance to the time of the greatest height that does not. -/
theorem GetDeltaTimeLoop_spec (l : List CBlockIndex) (tLast : Int) (n : Nat)
    (hanc : ∀ g : Int, 1 ≤ g → g ≤ n → GetAncestor l g ≠ []) :
    (GetDeltaTimeLoop l tLast n = none ∧
      ∀ g : Int, 1 ≤ g → g ≤ n → ancestorTime l g = some tLast) ∨
    (∃ gs t, 1 ≤ gs ∧ gs ≤ (n : Int) ∧ ancestorTime l gs = some t ∧ t ≠ tLast ∧
      (∀ g : Int, gs < g → g ≤ n → ancestorTime l g = some tLast) ∧
      GetDeltaTimeLoop l tLast n = some (abs64 (tLast - t))) := by
  induction n with
  | zero =>
    left
    refine ⟨rfl, fun g h1 h2 => ?_⟩
    simp at h2
    omega
  | succ n ih =>
    have hanc' : ∀ g : Int, 1 ≤ g → g ≤ n → GetAncestor l g ≠ [] := fun g h1 h2 =>
      hanc g h1 (by push_cast; omega)
    cases hfirst : GetAncestor l ((n : Int) + 1) with
    | nil => exact absurd hfirst (hanc _ (by omega) (by push_cast; omega))
    | cons first more =>
      have htime := ancestorTime_of_cons l _ first more hfirst
      simp only [GetDeltaTimeLoop, hfirst]
      by_cases heq : abs64 (tLast - first.nTime) = 0
      · rw [if_pos heq]
        have hsame : first.nTime = tLast := (abs64_sub_eq_zero _ _).1 heq
        rcases ih hanc' with ⟨hnone, hall⟩ | ⟨gs, t, h1, h2, h3, h4, h5, h6⟩
        · left
          refine ⟨hnone, fun g h1 h2 => ?_⟩
          by_cases hg : g ≤ n
          · exact hall g h1 hg
          · have : g = (n : Int) + 1 := by push_cast at h2; omega
            rw [this, htime, hsame]
        · right
          refine ⟨gs, t, h1, by push_cast; omega, h3, h4, fun g hg1 hg2 => ?_, h6⟩
          by_cases hg : g ≤ n
          · exact h5 g hg1 hg
          · have : g = (n : Int) + 1 := by push_cast at hg2; omega
            rw [this, htime, hsame]
      · rw [if_neg heq]
        right
        refine ⟨(n : Int) + 1, first.nTime, by omega, by push_cast; omega, htime, ?_,
          fun g hg1 hg2 => ?_, rfl⟩
        · intro hc
          exact heq ((abs64_sub_eq_zero _ _).2 hc)
        · push_cast at hg2
          omega

/-- C17. `GetDeltaTime` is a total function: its loop runs on the lookback height, which
decreases by one and stops the call at zero. When every height from 1 to `tip.height - k`
has an ancestor: if some such height carries a time other than the time of the tip, the
result is the absolute difference to the time at the greatest such height, and it is
strictly positive; if none does, the call stops on the assertion and returns nothing. -/
theorem GetDeltaTime_spec (k : Int) (tip : CBlockIndex) (rest : List CBlockIndex)
    (hanc : ∀ g : Int, 1 ≤ g → g ≤ tip.nHeight - k → GetAncestor (tip :: rest) g ≠ []) :
    ((∃ g t, 1 ≤ g ∧ g ≤ tip.nHeight - k ∧ ancestorTime (tip :: rest) g = some t ∧
        t ≠ tip.nTime) →
      ∃ gs t, 1 ≤ gs ∧ gs ≤ tip.nHeight - k ∧ ancestorTime (tip :: rest) gs = some t ∧
        t ≠ tip.nTime ∧
        (∀ g : Int, gs < g → g ≤ tip.nHeight - k →
          ancestorTime (tip :: rest) g = some tip.nTime) ∧
        GetDeltaTime k (tip :: rest) = some (abs64 (tip.nTime - t)) ∧
        0 < abs64 (tip.nTime - t)) ∧
    ((¬ ∃ g t, 1 ≤ g ∧ g ≤ tip.nHeight - k ∧ ancestorTime (tip :: rest) g = some t ∧
        t ≠ tip.nTime) →
      GetDeltaTime k (tip :: rest) = none) := by
  by_cases hpos : tip.nHeight - k > 0
  · have hcast : ((tip.nHeight - k).toNat : Int) = tip.nHeight - k := by omega
    have hG : GetDeltaTime k (tip :: rest) =
        GetDeltaTimeLoop (tip :: rest) tip.nTime (tip.nHeight - k).toNat := by
      simp only [GetDeltaTime, hpos, if_true]
    have hanc' : ∀ g : Int, 1 ≤ g → g ≤ ((tip.nHeight - k).toNat : Nat) →
        GetAncestor (tip :: rest) g ≠ [] := fun g h1 h2 => hanc g h1 (by omega)
    rcases GetDeltaTimeLoop_spec (tip :: rest) tip.nTime _ hanc' with
      ⟨hnone, hall⟩ | ⟨gs, t, h1, h2, h3, h4, h5, h6⟩
    · constructor
      · rintro ⟨g, t, h1, h2, h3, h4⟩
        have := hall g h1 (by omega)
        rw [h3] at this
        exact absurd (Option.some.inj this) h4
      · intro _
        rw [hG, hnone]
    · constructor
      · intro _
        refine ⟨gs, t, h1, by omega, h3, h4, fun g hg1 hg2 => h5 g hg1 (by omega), ?_, ?_⟩
        · rw [hG, h6]
        · have h0 := abs64_nonneg (tip.nTime - t)
          have hne : abs64 (tip.nTime - t) ≠ 0 := fun hc =>
            h4 ((abs64_sub_eq_zero _ _).1 hc)
          omega
      · intro hno
        exact absurd ⟨gs, t, h1, by omega, h3, h4⟩ hno
  · constructor
    · rintro ⟨g, t, h1, h2, -, -⟩
      omega
    · intro _
      simp only [GetDeltaTime, hpos, if_false]

/-- Witness of C17: on the stalled chain (tip height 8, heights 3 to 8 at time 30, height 2
at time 20) the lookback from height 6 goes down to height 2 and returns 10. -/
theorem GetDeltaTime_spec_witness :
    GetDeltaTime 2 stalledChain = some 10 ∧
    ∃ gs t, 1 ≤ gs ∧ gs ≤ (8 : Int) - 2 ∧ ancestorTime stalledChain gs = some t ∧
      t ≠ 30 ∧
      (∀ g : Int, gs < g → g ≤ (8 : Int) - 2 → ancestorTime stalledChain g = some 30) ∧
      GetDeltaTime 2 stalledChain = some (abs64 (30 - t)) ∧
      0 < abs64 (30 - t) :=
  ⟨by decide,
    (GetDeltaTime_spec 2 { nHeight := 8, nTime := 30, nBits := 0x1c00ffff } stalledChain.tail
      (by
        intro g h1 h2
        have h3 : g ≤ 6 := h2
        interval_cases g <;> decide)).1
      ⟨2, 20, by decide, by decide, by decide, by decide⟩⟩

/-! ## Legacy era: the min-difficulty walk -/

/-- The walk of the min-difficulty rule splits the chain: the blocks it passes all carry the
limit and a height that is not a multiple of the interval, and the block it stops at has no
predecessor, or a height that is a multiple of the interval, or other bits. -/
theorem walkBackLegacy_spec (interval : Int) (limit : Nat) (b0 : CBlockIndex)
    (l : List CBlockIndex) :
    ∃ pre b post, b0 :: l = pre ++ b :: post ∧
      walkBackLegacy interval limit (b0 :: l) = b :: post ∧
      (∀ x ∈ pre, x.nBits = limit ∧ Int.tmod x.nHeight interval ≠ 0) ∧
      (post = [] ∨ Int.tmod b.nHeight interval = 0 ∨ b.nBits ≠ limit) := by
  induction l generalizing b0 with
  | nil => exact ⟨[], b0, [], rfl, rfl, by simp, Or.inl rfl⟩
  | cons p rest ih =>
    by_cases hc : Int.tmod b0.nHeight interval ≠ 0 ∧ b0.nBits = limit
    · obtain ⟨pre, b, post, h1, h2, h3, h4⟩ := ih p
      refine ⟨b0 :: pre, b, post, by rw [h1]; rfl, ?_, ?_, h4⟩
      · simp only [walkBackLegacy]
        rw [if_pos hc]
        exact h2
      · intro x hx
        rcases List.mem_cons.1 hx with hx | hx
        · rw [hx]
          exact ⟨hc.2, hc.1⟩
        · exact h3 x hx
    · refine ⟨[], b0, p :: rest, rfl, ?_, by simp, ?_⟩
      · simp only [walkBackLegacy]
        rw [if_neg hc]
      · right
        by_cases hm : Int.tmod b0.nHeight interval = 0
        · exact Or.inl hm
        · exact Or.inr fun hb => hc ⟨hm, hb⟩

/-- C18. On the Legacy non-retarget path with the min-difficulty rule active and a candidate
at most two spacings after the tip, `GetNextWorkRequired` returns the bits of the nearest
block `b` at or behind the tip that has no predecessor, or a height that is a multiple of
the interval, or bits other than `get_compact(powLimit)`; every block before `b`, from the
tip on, carries `get_compact(powLimit)`. In particular the result is `tip.bits` when
`tip.bits` is not `get_compact(powLimit)`. -/
theorem GetNextWorkRequired_min_difficulty_walk (tip : CBlockIndex) (rest : List CBlockIndex)
    (pblock : CBlockHeader) (params : Params) (nFork interval : Int)
    (hI : DifficultyAdjustmentInterval params = some interval) (hI0 : interval ≠ 0)
    (hH : tip.nHeight < 26000) (hF : tip.nHeight < nFork)
    (hpath : Int.tmod (tip.nHeight + 1) interval ≠ 0 ∨ tip.nHeight = 16200)
    (hmin : params.fPowAllowMinDifficultyBlocks = true ∨ tip.nHeight ≥ 16200)
    (hcand : pblock.nTime ≤ tip.nTime + 2 * params.nPowTargetSpacing) :
    (∃ pre b post, tip :: rest = pre ++ b :: post ∧
      GetNextWorkRequired (tip :: rest) pblock params nFork = some b.nBits ∧
      (∀ x ∈ pre, x.nBits = GetCompact (UintToArith256 params.powLimit) ∧
        Int.tmod x.nHeight interval ≠ 0) ∧
      (post = [] ∨ Int.tmod b.nHeight interval = 0 ∨
        b.nBits ≠ GetCompact (UintToArith256 params.powLimit))) ∧
    (tip.nBits ≠ GetCompact (UintToArith256 params.powLimit) →
      GetNextWorkRequired (tip :: rest) pblock params nFork = some tip.nBits) := by
  have hc : ¬ pblock.nTime > tip.nTime + params.nPowTargetSpacing * 2 := by omega
  obtain ⟨pre, b, post, h1, h2, h3, h4⟩ :=
    walkBackLegacy_spec interval (GetCompact (UintToArith256 params.powLimit)) tip rest
  have hG : GetNextWorkRequired (tip :: rest) pblock params nFork = some b.nBits := by
    rw [legacy_split tip rest pblock params nFork interval hI hI0 hH hF, if_pos hpath]
    simp only [legacyNoRetarget, hmin, hc, if_true, if_false, h2]
  refine ⟨⟨pre, b, post, h1, hG, h3, h4⟩, fun hne => ?_⟩
  rw [hG]
  cases pre with
  | nil =>
    simp only [List.nil_append, List.cons.injEq] at h1
    rw [h1.1]
  | cons x pre' =>
    simp only [List.cons_append, List.cons.injEq] at h1
    have := (h3 x (List.mem_cons_self _ _)).1
    rw [← h1.1] at this
    exact absurd this hne

/-- Witness of C18: above height 16200 a tip and its predecessor carry the limit on top of
the regular chain; a candidate one spacing after the tip gets the bits of height 16200. -/
theorem GetNextWorkRequired_min_difficulty_walk_witness :
    (∃ pre b post,
      { nHeight := 16202, nTime := 9723000, nBits := 0x1d00ffff } :: minDifficultyChain.tail
        = pre ++ b :: post ∧
      GetNextWorkRequired
        ({ nHeight := 16202, nTime := 9723000, nBits := 0x1d00ffff } :: minDifficultyChain.tail)
        { nTime := 9723600 } mainParams 88000 = some b.nBits ∧
      (∀ x ∈ pre, x.nBits = GetCompact (UintToArith256 mainParams.powLimit) ∧
        Int.tmod x.nHeight 2016 ≠ 0) ∧
      (post = [] ∨ Int.tmod b.nHeight 2016 = 0 ∨
        b.nBits ≠ GetCompact (UintToArith256 mainParams.powLimit))) ∧
    GetNextWorkRequired minDifficultyChain { nTime := 9723600 } mainParams 88000
      = some 0x1c00ffff :=
  ⟨(GetNextWorkRequired_min_difficulty_walk
      { nHeight := 16202, nTime := 9723000, nBits := 0x1d00ffff } minDifficultyChain.tail
      { nTime := 9723600 } mainParams 88000 2016 (by decide) (by decide) (by decide) (by decide)
      (by decide) (by decide) (by decide)).1,
    by decide⟩

/-! ## Well-formed chains -/

/-- On a well-formed chain a block of positive height has a predecessor of height one less,
and the chain behind it is well-formed. -/
theorem wellFormed_cons (b : CBlockIndex) (l : List CBlockIndex)
    (hwf : wellFormed (b :: l) = true) (hpos : 0 < b.nHeight) :
    ∃ p rest, l = p :: rest ∧ p.nHeight = b.nHeight - 1 ∧ wellFormed (p :: rest) = true := by
  cases l with
  | nil =>
    simp only [wellFormed, decide_eq_true_eq] at hwf
    omega
  | cons p rest =>
    simp only [wellFormed, Bool.and_eq_true, Bool.or_eq_true, decide_eq_true_eq] at hwf
    refine ⟨p, rest, rfl, ?_, hwf.2⟩
    rcases hwf.1 with h | h
    · omega
    · exact h

/-- On a well-formed chain the block `i` steps behind a block of height at least `i` is
there and has the height of that block minus `i`. -/
theorem wellFormed_drop (i : Nat) (b : CBlockIndex) (l : List CBlockIndex)
    (hwf : wellFormed (b :: l) = true) (hi : (i : Int) ≤ b.nHeight) :
    ∃ c tl, (b :: l).drop i = c :: tl ∧ c.nHeight = b.nHeight - i ∧
      wellFormed (c :: tl) = true := by
  induction i generalizing b l with
  | zero => exact ⟨b, l, rfl, by simp, hwf⟩
  | succ i ih =>
    obtain ⟨p, rest, hl, hp, hwf'⟩ := wellFormed_cons b l hwf (by push_cast at hi; omega)
    subst hl
    obtain ⟨c, tl, h1, h2, h3⟩ := ih p rest hwf' (by push_cast at hi; omega)
    refine ⟨c, tl, ?_, ?_, h3⟩
    · rw [List.drop_succ_cons]
      exact h1
    · rw [h2, hp]
      push_cast
      omega

/-- On a well-formed chain the ancestor lookup is total between 0 and the height of the tip
and returns a block of the height asked. -/
theorem GetAncestor_wellFormed (tip : CBlockIndex) (rest : List CBlockIndex)
    (hwf : wellFormed (tip :: rest) = true) (g : Int) (h0 : 0 ≤ g) (h1 : g ≤ tip.nHeight) :
    ∃ c tl, GetAncestor (tip :: rest) g = c :: tl ∧ c.nHeight = g := by
  have hc : ¬ (g > tip.nHeight ∨ g < 0) := by omega
  obtain ⟨c, tl, h2, h3, -⟩ := wellFormed_drop (tip.nHeight - g).toNat tip rest hwf (by omega)
  refine ⟨c, tl, ?_, by omega⟩
  simp only [GetAncestor, hc, if_false]
  exact h2

/-- On a well-formed chain a tip of height at least 6 has six predecessors. -/
theorem wellFormed_six (tip : CBlockIndex) (rest : List CBlockIndex)
    (hwf : wellFormed (tip :: rest) = true) (h6 : 6 ≤ tip.nHeight) :
    ∃ b1 b2 b3 b4 b5 b6 rest', rest = b1 :: b2 :: b3 :: b4 :: b5 :: b6 :: rest' := by
  obtain ⟨c, tl, h, -, -⟩ := wellFormed_drop 6 tip rest hwf (by push_cast; omega)
  rcases rest with _ | ⟨b1, _ | ⟨b2, _ | ⟨b3, _ | ⟨b4, _ | ⟨b5, _ | ⟨b6, rest'⟩⟩⟩⟩⟩⟩ <;>
    simp at h
  exact ⟨b1, b2, b3, b4, b5, b6, rest', rfl⟩

/-- When every height from 1 to `tip.height - k` has an ancestor, `GetDeltaTime` returns a
value exactly when one of these heights carries a time other than the time of the tip. -/
theorem GetDeltaTime_isSome_iff (k : Int) (tip : CBlockIndex) (rest : List CBlockIndex)
    (hanc : ∀ g : Int, 1 ≤ g → g ≤ tip.nHeight - k → GetAncestor (tip :: rest) g ≠ []) :
    (∃ d, GetDeltaTime k (tip :: rest) = some d) ↔
      ∃ g t, 1 ≤ g ∧ g ≤ tip.nHeight - k ∧ ancestorTime (tip :: rest) g = some t ∧
        t ≠ tip.nTime := by
  by_cases hpos : tip.nHeight - k > 0
  · have hG : GetDeltaTime k (tip :: rest) =
        GetDeltaTimeLoop (tip :: rest) tip.nTime (tip.nHeight - k).toNat := by
      simp only [GetDeltaTime, hpos, if_true]
    have hanc' : ∀ g : Int, 1 ≤ g → g ≤ ((tip.nHeight - k).toNat : Nat) →
        GetAncestor (tip :: rest) g ≠ [] := fun g h1 h2 => hanc g h1 (by omega)
    rw [hG]
    rcases GetDeltaTimeLoop_spec (tip :: rest) tip.nTime _ hanc' with
      ⟨hnone, hall⟩ | ⟨gs, t, h1, h2, h3, h4, h5, h6⟩
    · constructor
      · rintro ⟨d, hd⟩
        rw [hnone] at hd
        exact absurd hd (by simp)
      · rintro ⟨g, t, h1, h2, h3, h4⟩
        have := hall g h1 (by omega)
        rw [h3] at this
        exact absurd (Option.some.inj this) h4
    · constructor
      · intro _
        exact ⟨gs, t, h1, by omega, h3, h4⟩
      · intro _
        exact ⟨_, h6⟩
  · constructor
    · rintro ⟨d, hd⟩
      simp only [GetDeltaTime, hpos, if_false] at hd
      exact absurd hd (by simp)
    · rintro ⟨g, t, h1, h2, -, -⟩
      omega

/-- The first `if/else` of `GetNextWorkRequiredMC2` returns a value on positive deltas. -/
theorem adjustUp_isSome (t : Int) (bn : Nat) (d6 d144 : Int) (h6 : 0 < d6) (h144 : 0 < d144) :
    ∃ x, adjustUp t bn d6 d144 = some x := by
  unfold adjustUp
  split
  · exact ⟨_, mulDiv_eq _ _ _ (by omega) (by norm_num)⟩
  · split
    · exact ⟨_, mulDiv_eq _ _ _ (by omega) (by norm_num)⟩
    · exact ⟨_, rfl⟩

/-- The second `if/else` of `GetNextWorkRequiredMC2` returns a value on a positive delta. -/
theorem adjustDown_isSome (t : Int) (bn : Nat) (d6 : Int) (h6 : 0 < d6) :
    ∃ x, adjustDown t bn d6 = some x := by
  unfold adjustDown
  split
  · exact ⟨_, mulDiv_eq _ _ _ (by omega) (by norm_num)⟩
  · split
    · exact ⟨_, mulDiv_eq _ _ _ (by omega) (by norm_num)⟩
    · exact ⟨_, rfl⟩

/-- The last test of `GetNextWorkRequiredMC2` always returns a value. -/
theorem GetNextWorkRequiredMC2_of_parts (tip : CBlockIndex) (rest : List CBlockIndex)
    (params : Params) (st : Int × Nat) (d6 d144 : Int)
    (hav : averagingLoop 6 (tip :: rest) 0 0 = some st)
    (h6 : GetDeltaTime 6 (tip :: rest) = some d6)
    (h144 : GetDeltaTime 144 (tip :: rest) = some d144) :
    ∃ r, GetNextWorkRequiredMC2 (tip :: rest) params = some r := by
  obtain ⟨sumTime, sumBits⟩ := st
  have p6 := GetDeltaTime_pos 6 _ d6 h6
  have p144 := GetDeltaTime_pos 144 _ d144 h144
  obtain ⟨bn1, hup⟩ := adjustUp_isSome (Int.tdiv sumTime 6) (sumBits / 6) d6 d144 p6 p144
  obtain ⟨bn2, hdown⟩ := adjustDown_isSome (Int.tdiv sumTime 6) bn1 d6 p6
  simp only [GetNextWorkRequiredMC2, hav, h6, h144, hup, hdown]
  split
  · exact ⟨_, rfl⟩
  · exact ⟨_, rfl⟩

/-- `GetNextWorkRequiredMC2` returns nothing when `GetDeltaTime(144, tip)` does not. -/
theorem GetNextWorkRequiredMC2_none (l : List CBlockIndex) (params : Params)
    (h144 : GetDeltaTime 144 l = none) : GetNextWorkRequiredMC2 l params = none := by
  cases l with
  | nil => rfl
  | cons tip rest =>
    simp only [GetNextWorkRequiredMC2]
    cases averagingLoop 6 (tip :: rest) 0 0 with
    | none => rfl
    | some st =>
      cases GetDeltaTime 6 (tip :: rest) with
      | none => rfl
      | some d6 => simp [h144]

/-- C19. On a well-formed chain `GetNextWorkRequiredMC2` returns a value exactly when some
height from 1 to `tip.height - 144` carries a time other than the time of the tip; so it
returns nothing for a tip of height at most 144, which `GetNextWorkRequired` reaches when
the fork height is at or below that height. -/
theorem GetNextWorkRequiredMC2_returns_iff (tip : CBlockIndex) (rest : List CBlockIndex)
    (params : Params) (hwf : wellFormed (tip :: rest) = true) :
    ((∃ r, GetNextWorkRequiredMC2 (tip :: rest) params = some r) ↔
      ∃ g t, 1 ≤ g ∧ g ≤ tip.nHeight - 144 ∧ ancestorTime (tip :: rest) g = some t ∧
        t ≠ tip.nTime) ∧
    (tip.nHeight ≤ 144 → GetNextWorkRequiredMC2 (tip :: rest) params = none) ∧
    (∀ (pblock : CBlockHeader) (nFork : Int), nFork ≤ tip.nHeight → tip.nHeight ≤ 144 →
      GetNextWorkRequired (tip :: rest) pblock params nFork = none) := by
  have hanc : ∀ k : Int, 0 ≤ k → ∀ g : Int, 1 ≤ g → g ≤ tip.nHeight - k →
      GetAncestor (tip :: rest) g ≠ [] := by
    intro k hk g h1 h2
    obtain ⟨c, tl, h, -⟩ := GetAncestor_wellFormed tip rest hwf g (by omega) (by omega)
    rw [h]
    simp
  have hlow : tip.nHeight ≤ 144 → GetNextWorkRequiredMC2 (tip :: rest) params = none := by
    intro h
    apply GetNextWorkRequiredMC2_none
    have hc : ¬ tip.nHeight - 144 > 0 := by omega
    simp only [GetDeltaTime, hc, if_false]
  refine ⟨⟨?_, ?_⟩, hlow, fun pblock nFork hF h => ?_⟩
  · rintro ⟨r, hr⟩
    cases h144 : GetDeltaTime 144 (tip :: rest) with
    | none =>
      rw [GetNextWorkRequiredMC2_none _ params h144] at hr
      exact absurd hr (by simp)
    | some d144 =>
      exact (GetDeltaTime_isSome_iff 144 tip rest (hanc 144 (by omega))).1 ⟨d144, h144⟩
  · rintro ⟨g, t, h1, h2, h3, h4⟩
    obtain ⟨d144, h144⟩ :=
      (GetDeltaTime_isSome_iff 144 tip rest (hanc 144 (by omega))).2 ⟨g, t, h1, h2, h3, h4⟩
    obtain ⟨d6, h6⟩ :=
      (GetDeltaTime_isSome_iff 6 tip rest (hanc 6 (by omega))).2 ⟨g, t, h1, by omega, h3, h4⟩
    obtain ⟨b1, b2, b3, b4, b5, b6, rest', hrest⟩ := wellFormed_six tip rest hwf (by omega)
    have hav := averagingLoop_seven tip b1 b2 b3 b4 b5 b6 rest'
    rw [← hrest] at hav
    exact GetNextWorkRequiredMC2_of_parts tip rest params _ d6 d144 hav h6 h144
  · have hF' : tip.nHeight ≥ nFork := hF
    simp only [GetNextWorkRequired, hF', if_true]
    exact hlow h

/-- Witness of C19: the regular chain of height 200 is well-formed and a value is returned;
the stalled chain of height 8 is well-formed and nothing is returned. -/
theorem GetNextWorkRequiredMC2_returns_iff_witness :
    (∃ r, GetNextWorkRequiredMC2
      (regularTip 60 0x1c00ffff 200 :: regularChain 60 0x1c00ffff 199) mainParams = some r) ∧
    GetNextWorkRequiredMC2 stalledChain mainParams = none ∧
    GetNextWorkRequired stalledChain { nTime := 40 } mainParams 5 = none :=
  ⟨(GetNextWorkRequiredMC2_returns_iff (regularTip 60 0x1c00ffff 200)
      (regularChain 60 0x1c00ffff 199) mainParams (by decide)).1.2
      ⟨1, 60, by decide, by decide, by decide, by decide⟩,
    (GetNextWorkRequiredMC2_returns_iff { nHeight := 8, nTime := 30, nBits := 0x1c00ffff }
      stalledChain.tail mainParams (by decide)).2.1 (by decide),
    (GetNextWorkRequiredMC2_returns_iff { nHeight := 8, nTime := 30, nBits := 0x1c00ffff }
      stalledChain.tail mainParams (by decide)).2.2 { nTime := 40 } 5 (by decide) (by decide)⟩

/-! ## Totality below the fork height -/

/-- The regular chain is well-formed. -/
theorem wellFormed_regularChain (spacing : Int) (bits : Nat) (n : Nat) :
    wellFormed (regularChain spacing bits n) = true := by
  induction n with
  | zero => simp [regularChain, wellFormed, regularTip]
  | succ n ih =>
    cases n with
    | zero => simp [regularChain, wellFormed, regularTip]
    | succ m =>
      simp only [regularChain] at ih ⊢
      simp only [wellFormed, ih, Bool.and_true, Bool.or_eq_true, decide_eq_true_eq]
      right
      simp only [regularTip]
      push_cast
      omega

/-- With a positive timespan `CalculateNextWorkRequired` returns a value on a tip. -/
theorem CalculateNextWorkRequired_isSome (tip : CBlockIndex) (rest : List CBlockIndex)
    (firstTime : Int) (params : Params) (hT : 0 < params.nPowTargetTimespan) :
    ∃ r, CalculateNextWorkRequired (tip :: rest) firstTime params = some r := by
  cases hNR : params.fPowNoRetargeting with
  | true => exact ⟨tip.nBits, by simp [CalculateNextWorkRequired, hNR]⟩
  | false => exact ⟨_, CalculateNextWorkRequired_eq tip rest firstTime params hNR hT⟩

/-- With a positive timespan `CalculateNextWorkRequiredMC` returns a value on a base and a tip
that has a predecessor. -/
theorem CalculateNextWorkRequiredMC_isSome (base : CBlockIndex) (more : List CBlockIndex)
    (tip prev : CBlockIndex) (rest : List CBlockIndex) (firstTime : Int) (params : Params)
    (hT : 0 < params.nPowTargetTimespan) :
    ∃ r, CalculateNextWorkRequiredMC (base :: more) (tip :: prev :: rest) firstTime params
      = some r := by
  cases hNR : params.fPowNoRetargeting with
  | true => exact ⟨base.nBits, by simp [CalculateNextWorkRequiredMC, hNR]⟩
  | false =>
    have hdiv : Int.tdiv (params.nPowTargetTimespan * 3) 4 = params.nPowTargetTimespan * 3 / 4 :=
      Int.tdiv_eq_ediv (by omega) (by omega)
    have hnn : 0 ≤ min (max (tip.nTime - firstTime) (params.nPowTargetTimespan * 3 / 4))
        (params.nPowTargetTimespan * 3 * 4) := by
      simp only [min_def, max_def]
      split_ifs <;> omega
    simp only [CalculateNextWorkRequiredMC, hNR, hdiv, clamp_eq, Bool.false_eq_true, if_false]
    split
    · exact ⟨_, rfl⟩
    · rw [mulDiv_eq _ _ _ hnn (by omega)]
      exact ⟨_, rfl⟩

/-- C20. On a well-formed chain, with a positive timespan and a positive adjustment interval,
`GetNextWorkRequired` returns a value for every tip of height between 0 and the fork height:
in the MC era the height `tip.height - 18` is not negative, its ancestor is there and the
tip has a predecessor; on the Legacy retarget path the height `tip.height - (interval - 1)`
is not negative and its ancestor is there. -/
theorem GetNextWorkRequired_returns (tip : CBlockIndex) (rest : List CBlockIndex)
    (pblock : CBlockHeader) (params : Params) (nFork interval : Int)
    (hwf : wellFormed (tip :: rest) = true) (hT : 0 < params.nPowTargetTimespan)
    (hI : DifficultyAdjustmentInterval params = some interval) (hpos : 0 < interval)
    (h0 : 0 ≤ tip.nHeight) (hF : tip.nHeight < nFork) :
    (∃ r, GetNextWorkRequired (tip :: rest) pblock params nFork = some r) ∧
    (26000 ≤ tip.nHeight →
      0 ≤ tip.nHeight - 18 ∧ GetAncestor (tip :: rest) (tip.nHeight - 18) ≠ [] ∧ rest ≠ []) ∧
    (tip.nHeight < 26000 →
      ¬ (Int.tmod (tip.nHeight + 1) interval ≠ 0 ∨ tip.nHeight = 16200) →
      0 ≤ tip.nHeight - (interval - 1) ∧
      GetAncestor (tip :: rest) (tip.nHeight - (interval - 1)) ≠ []) := by
  have hMC : 26000 ≤ tip.nHeight →
      0 ≤ tip.nHeight - 18 ∧ GetAncestor (tip :: rest) (tip.nHeight - 18) ≠ [] ∧ rest ≠ [] := by
    intro hH
    obtain ⟨c, tl, h, -⟩ :=
      GetAncestor_wellFormed tip rest hwf (tip.nHeight - 18) (by omega) (by omega)
    obtain ⟨p, rest', hr, -, -⟩ := wellFormed_cons tip rest hwf (by omega)
    refine ⟨by omega, ?_, ?_⟩
    · rw [h]
      simp
    · rw [hr]
      simp
  have hLeg : tip.nHeight < 26000 →
      ¬ (Int.tmod (tip.nHeight + 1) interval ≠ 0 ∨ tip.nHeight = 16200) →
      0 ≤ tip.nHeight - (interval - 1) ∧
      GetAncestor (tip :: rest) (tip.nHeight - (interval - 1)) ≠ [] := by
    intro _ hc
    have hm : Int.tmod (tip.nHeight + 1) interval = 0 := by
      by_contra hne
      exact hc (Or.inl hne)
    have hdvd : interval ∣ tip.nHeight + 1 := Int.dvd_of_tmod_eq_zero hm
    have hle : interval ≤ tip.nHeight + 1 := Int.le_of_dvd (by omega) hdvd
    obtain ⟨c, tl, h, -⟩ :=
      GetAncestor_wellFormed tip rest hwf (tip.nHeight - (interval - 1)) (by omega) (by omega)
    refine ⟨by omega, ?_⟩
    rw [h]
    simp
  refine ⟨?_, hMC, hLeg⟩
  by_cases hH : 26000 ≤ tip.nHeight
  · have h1 : ¬ tip.nHeight ≥ nFork := by omega
    have h2 : tip.nHeight ≥ 26000 := hH
    obtain ⟨hge, hanc, hrest⟩ := hMC hH
    have hge' : tip.nHeight - 18 ≥ 0 := hge
    simp only [GetNextWorkRequired, GetNextWorkRequiredMC, h1, h2, hge', if_false, if_true]
    by_cases hlate : pblock.nTime > tip.nTime + params.nPowTargetSpacing * 4
    · rw [if_pos hlate]
      exact ⟨_, rfl⟩
    · rw [if_neg hlate]
      cases hfirst : GetAncestor (tip :: rest) (tip.nHeight - 18) with
      | nil => exact absurd hfirst hanc
      | cons first more =>
        simp only
        cases hb : selectBaseMC (GetCompact (UintToArith256 params.powLimit)) (tip :: rest)
          (first :: more) with
        | nil => exact absurd hb (selectBaseMC_ne_nil _ tip first rest more)
        | cons base tl =>
          cases rest with
          | nil => exact absurd rfl hrest
          | cons prev rest' =>
            exact CalculateNextWorkRequiredMC_isSome base tl tip prev rest' first.nTime params hT
  · have hH' : tip.nHeight < 26000 := by omega
    have hI0 : interval ≠ 0 := by omega
    rw [legacy_split tip rest pblock params nFork interval hI hI0 hH' hF]
    by_cases hc : Int.tmod (tip.nHeight + 1) interval ≠ 0 ∨ tip.nHeight = 16200
    · rw [if_pos hc]
      obtain ⟨pre, b, post, -, hw, -, -⟩ :=
        walkBackLegacy_spec interval (GetCompact (UintToArith256 params.powLimit)) tip rest
      simp only [legacyNoRetarget, hw]
      split
      · split
        · exact ⟨_, rfl⟩
        · exact ⟨_, rfl⟩
      · exact ⟨_, rfl⟩
    · rw [if_neg hc]
      obtain ⟨hge, hanc⟩ := hLeg hH' hc
      have hge' : tip.nHeight - (interval - 1) ≥ 0 := hge
      simp only [legacyRetarget, hge', if_true]
      cases hfirst : GetAncestor (tip :: rest) (tip.nHeight - (interval - 1)) with
      | nil => exact absurd hfirst hanc
      | cons first more =>
        exact CalculateNextWorkRequired_isSome tip rest first.nTime params hT

/-- Witness of C20: the regular chain at height 30000 (MC era) and at height 2015 (Legacy
retarget), with the main parameters. -/
theorem GetNextWorkRequired_returns_witness :
    (∃ r, GetNextWorkRequired (regularChain 600 0x1c00ffff 30000) { nTime := 18000600 }
      mainParams 88000 = some r) ∧
    (∃ r, GetNextWorkRequired (regularChain 600 0x1c00ffff 2015) { nTime := 1209600 }
      mainParams 88000 = some r) :=
  ⟨(GetNextWorkRequired_returns (regularTip 600 0x1c00ffff ((29999 : Nat) + 1))
      (regularChain 600 0x1c00ffff 29999) { nTime := 18000600 } mainParams 88000 2016
      (wellFormed_regularChain 600 0x1c00ffff 30000) (by decide) (by decide) (by decide)
      (by decide) (by decide)).1,
   (GetNextWorkRequired_returns (regularTip 600 0x1c00ffff ((2014 : Nat) + 1))
      (regularChain 600 0x1c00ffff 2014) { nTime := 1209600 } mainParams 88000 2016
      (wellFormed_regularChain 600 0x1c00ffff 2015) (by decide) (by decide) (by decide)
      (by decide) (by decide)).1⟩

end Marycoin
